import Mathlib

/-!
Verification development for the wiki-rag repository.

Each section embeds one part of the TypeScript source as executable Lean
definitions and proves (or refutes) the specification claims about it.
-/

namespace WikiRag

/-! Embedding of searchSimilar (src/server/lib/db.ts, lines 122-182).

The pgvector cosine-distance operator is abstracted as a parameter
dist : List Rat -> List Rat -> Rat; the two SQL queries become pure
filter / join / sort operations over models of the two tables, and the
JavaScript Map-based merge becomes a fold over an association list that
keeps, per chunk_id, the first row attaining the minimal cs. -/

/-- Row shape produced by the two SQL queries inside searchSimilar:
chunk id, wiki id, the matched question text (null for the chunk query),
chunk text, and the cosine-distance value cs. -/
structure SRow where
  chunk_id : Int
  wiki_id : String
  question : Option String
  chunk : String
  cs : Rat
deriving Repr, DecidableEq

/-- Stored row of table wiki_rag.question. -/
structure QuestionRow where
  chunk_id : Int
  wiki_id : String
  text : String
  embedding : List Rat
deriving Repr, DecidableEq

/-- Stored row of table wiki_rag.chunk. -/
structure ChunkRow where
  chunk_id : Int
  wiki_id : String
  text : String
  embedding : List Rat
deriving Repr, DecidableEq

/-- Comparison used by ORDER BY "cs" and by the final JavaScript sort
(a, b) => a.cs - b.cs (ascending by cs). -/
def csLe (a b : SRow) : Prop := a.cs ≤ b.cs

instance : DecidableRel csLe := fun a b => inferInstanceAs (Decidable (a.cs ≤ b.cs))

instance : IsTotal SRow csLe := ⟨fun a b => le_total a.cs b.cs⟩

instance : IsTrans SRow csLe := ⟨fun _ _ _ h h2 => le_trans h h2⟩

/-- First SQL query of searchSimilar: join wiki_rag.question with
wiki_rag.chunk on chunk_id, keep rows with (Q.embedding <=> query) <= threshold,
order ascending by cs.  The question column carries Q.text. -/
def questionQueryRows (dist : List Rat → List Rat → Rat) (qtab : List QuestionRow)
    (ctab : List ChunkRow) (queryEmbedding : List Rat) (threshold : Rat) : List SRow :=
  List.insertionSort csLe
    ((qtab.flatMap (fun q =>
        (ctab.filter (fun c => decide (c.chunk_id = q.chunk_id))).map (fun c =>
          { chunk_id := q.chunk_id, wiki_id := q.wiki_id, question := some q.text,
            chunk := c.text, cs := dist q.embedding queryEmbedding }))).filter
      (fun r => decide (r.cs ≤ threshold)))

/-- Second SQL query of searchSimilar: scan wiki_rag.chunk, keep rows with
(embedding <=> query) <= threshold, order ascending by cs.  The question
column is null. -/
def chunkQueryRows (dist : List Rat → List Rat → Rat) (ctab : List ChunkRow)
    (queryEmbedding : List Rat) (threshold : Rat) : List SRow :=
  List.insertionSort csLe
    ((ctab.map (fun c =>
        { chunk_id := c.chunk_id, wiki_id := c.wiki_id, question := none,
          chunk := c.text, cs := dist c.embedding queryEmbedding })).filter
      (fun r => decide (r.cs ≤ threshold)))

/-- One step of the JavaScript merge loop: chunkMap.set is performed when the
key is absent or the new row has strictly smaller cs.  A JavaScript Map keeps
the position of an existing key on update and appends new keys at the end;
the association list mirrors that. -/
def updateMap : List SRow → SRow → List SRow
  | [], r => [r]
  | x :: xs, r =>
    if x.chunk_id = r.chunk_id then (if r.cs < x.cs then r else x) :: xs
    else x :: updateMap xs r

/-- The merge loop of searchSimilar over allResults (question rows first,
then chunk rows). -/
def mergeRows (rows : List SRow) : List SRow := rows.foldl updateMap []

/-- Full searchSimilar: run both queries, merge keeping the best cs per
chunk_id, sort ascending by cs and truncate to chunksLimit. -/
def searchSimilar (dist : List Rat → List Rat → Rat) (qtab : List QuestionRow)
    (ctab : List ChunkRow) (queryEmbedding : List Rat) (threshold : Rat)
    (chunksLimit : Nat) : List SRow :=
  (List.insertionSort csLe
    (mergeRows (questionQueryRows dist qtab ctab queryEmbedding threshold ++
      chunkQueryRows dist ctab queryEmbedding threshold))).take chunksLimit

/-- Lookup of the first row with the given chunk_id in an association list. -/
def lookupId (k : Int) : List SRow → Option SRow
  | [] => none
  | x :: xs => if x.chunk_id = k then some x else lookupId k xs

/-- Folding step computing, over the rows sharing one chunk_id, the first row
attaining the minimal cs (updates only on strict decrease). -/
def bestStep (acc : Option SRow) (r : SRow) : Option SRow :=
  match acc with
  | none => some r
  | some b => if r.cs < b.cs then some r else some b

/-- Rows of a list having the given chunk_id. -/
def rowsFor (k : Int) (l : List SRow) : List SRow :=
  l.filter (fun r => decide (r.chunk_id = k))

theorem lookupId_updateMap (m : List SRow) (r : SRow) (k : Int) :
    lookupId k (updateMap m r) =
      if r.chunk_id = k then bestStep (lookupId k m) r else lookupId k m := by
  induction m with
  | nil =>
    by_cases hk : r.chunk_id = k
    · simp [updateMap, lookupId, hk, bestStep]
    · simp [updateMap, lookupId, hk]
  | cons x xs ih =>
    by_cases hx : x.chunk_id = r.chunk_id
    · by_cases hk : r.chunk_id = k
      · have hxk : x.chunk_id = k := by rw [hx, hk]
        by_cases hc : r.cs < x.cs
        · simp [updateMap, hx, hc, lookupId, hk, hxk, bestStep]
        · simp [updateMap, hx, hc, lookupId, hk, hxk, bestStep]
      · have hxk : ¬ x.chunk_id = k := by rw [hx]; exact hk
        by_cases hc : r.cs < x.cs
        · simp [updateMap, hx, hc, lookupId, hxk, hk]
        · simp [updateMap, hx, hc, lookupId, hxk, hk]
    · by_cases hxk : x.chunk_id = k
      · have hrk : ¬ r.chunk_id = k := fun h => hx (hxk.trans h.symm)
        rw [if_neg hrk]
        simp only [updateMap, if_neg hx]
        simp only [lookupId, if_pos hxk]
      · simp [updateMap, hx, lookupId, hxk, ih]

theorem foldl_updateMap_lookup (rows : List SRow) (m : List SRow) (k : Int) :
    lookupId k (rows.foldl updateMap m) =
      (rowsFor k rows).foldl bestStep (lookupId k m) := by
  induction rows generalizing m with
  | nil => simp [rowsFor]
  | cons r rs ih =>
    by_cases hk : r.chunk_id = k
    · have hcons : rowsFor k (r :: rs) = r :: rowsFor k rs := by
        simp [rowsFor, List.filter_cons, hk]
      rw [List.foldl_cons, ih, hcons, List.foldl_cons, lookupId_updateMap, if_pos hk]
    · have hcons : rowsFor k (r :: rs) = rowsFor k rs := by
        simp [rowsFor, List.filter_cons, hk]
      rw [List.foldl_cons, ih, hcons, lookupId_updateMap, if_neg hk]

theorem mem_updateMap (m : List SRow) (r : SRow) (a : SRow) (ha : a ∈ updateMap m r) :
    a = r ∨ a ∈ m := by
  induction m with
  | nil => simpa [updateMap] using ha
  | cons x xs ih =>
    simp only [updateMap] at ha
    by_cases hx : x.chunk_id = r.chunk_id
    · simp only [hx, if_pos] at ha
      rcases List.mem_cons.1 ha with h | h
      · by_cases hc : r.cs < x.cs
        · simp only [hc, if_pos] at h; exact Or.inl h
        · simp only [hc, if_neg, not_false_iff] at h
          exact Or.inr (by rw [h]; exact List.mem_cons_self x xs)
      · exact Or.inr (List.mem_cons_of_mem x h)
    · simp only [hx, if_neg, not_false_iff] at ha
      rcases List.mem_cons.1 ha with h | h
      · exact Or.inr (by rw [h]; exact List.mem_cons_self x xs)
      · rcases ih h with h1 | h1
        · exact Or.inl h1
        · exact Or.inr (List.mem_cons_of_mem x h1)

theorem chunkId_mem_updateMap (m : List SRow) (r : SRow) (a : SRow)
    (ha : a ∈ updateMap m r) : a.chunk_id = r.chunk_id ∨ ∃ b ∈ m, a.chunk_id = b.chunk_id := by
  rcases mem_updateMap m r a ha with h | h
  · exact Or.inl (by rw [h])
  · exact Or.inr ⟨a, h, rfl⟩

/-- Keys of the association list stay pairwise distinct under updateMap. -/
theorem pairwise_updateMap (m : List SRow) (r : SRow)
    (hm : m.Pairwise (fun a b => a.chunk_id ≠ b.chunk_id)) :
    (updateMap m r).Pairwise (fun a b => a.chunk_id ≠ b.chunk_id) := by
  induction m with
  | nil => simp [updateMap]
  | cons x xs ih =>
    rcases List.pairwise_cons.1 hm with ⟨hx, hxs⟩
    simp only [updateMap]
    by_cases h : x.chunk_id = r.chunk_id
    · simp only [h, if_pos]
      apply List.pairwise_cons.2
      refine ⟨?_, hxs⟩
      intro b hb
      by_cases hc : r.cs < x.cs
      · simp only [hc, if_pos]
        rw [← h]
        exact hx b hb
      · simp only [hc, if_neg, not_false_iff]
        exact hx b hb
    · simp only [h, if_neg, not_false_iff]
      apply List.pairwise_cons.2
      refine ⟨?_, ih hxs⟩
      intro b hb
      rcases chunkId_mem_updateMap xs r b hb with hb1 | ⟨c, hc, hb1⟩
      · rw [hb1]; exact fun hcontra => h hcontra
      · rw [hb1]; exact hx c hc

theorem pairwise_mergeRows (rows : List SRow) :
    (mergeRows rows).Pairwise (fun a b => a.chunk_id ≠ b.chunk_id) := by
  suffices h : ∀ m, m.Pairwise (fun a b : SRow => a.chunk_id ≠ b.chunk_id) →
      (rows.foldl updateMap m).Pairwise (fun a b => a.chunk_id ≠ b.chunk_id) by
    exact h [] (by simp)
  induction rows with
  | nil => intro m hm; simpa using hm
  | cons r rs ih =>
    intro m hm
    exact ih (updateMap m r) (pairwise_updateMap m r hm)

theorem lookup_of_mem (m : List SRow)
    (hm : m.Pairwise (fun a b => a.chunk_id ≠ b.chunk_id)) (e : SRow) (he : e ∈ m) :
    lookupId e.chunk_id m = some e := by
  induction m with
  | nil => cases he
  | cons x xs ih =>
    rcases List.pairwise_cons.1 hm with ⟨hx, hxs⟩
    rcases List.mem_cons.1 he with h | h
    · subst h; simp [lookupId]
    · simp only [lookupId]
      rw [if_neg (hx e h)]
      exact ih hxs h

theorem foldl_bestStep_some (l : List SRow) (b : SRow) :
    ∃ e, l.foldl bestStep (some b) = some e ∧ (e = b ∨ e ∈ l) ∧ e.cs ≤ b.cs ∧
      ∀ r ∈ l, e.cs ≤ r.cs := by
  induction l generalizing b with
  | nil => exact ⟨b, rfl, Or.inl rfl, le_refl _, by simp⟩
  | cons r rs ih =>
    by_cases hc : r.cs < b.cs
    · rcases ih r with ⟨e, he1, he2, he3, he4⟩
      refine ⟨e, ?_, ?_, ?_, ?_⟩
      · simpa [bestStep, hc] using he1
      · rcases he2 with h | h
        · exact Or.inr (h ▸ List.mem_cons_self r rs)
        · exact Or.inr (List.mem_cons_of_mem r h)
      · exact le_trans he3 (le_of_lt hc)
      · intro x hx
        rcases List.mem_cons.1 hx with h | h
        · exact h ▸ he3
        · exact he4 x h
    · rcases ih b with ⟨e, he1, he2, he3, he4⟩
      refine ⟨e, ?_, ?_, he3, ?_⟩
      · simpa [bestStep, hc] using he1
      · rcases he2 with h | h
        · exact Or.inl h
        · exact Or.inr (List.mem_cons_of_mem r h)
      · intro x hx
        rcases List.mem_cons.1 hx with h | h
        · exact h ▸ le_trans he3 (le_of_not_lt hc)
        · exact he4 x h

theorem foldl_bestStep_none (l : List SRow) (hl : l ≠ []) :
    ∃ e, l.foldl bestStep none = some e ∧ e ∈ l ∧ ∀ r ∈ l, e.cs ≤ r.cs := by
  cases l with
  | nil => exact absurd rfl hl
  | cons r rs =>
    rcases foldl_bestStep_some rs r with ⟨e, he1, he2, he3, he4⟩
    refine ⟨e, ?_, ?_, ?_⟩
    · simpa [bestStep] using he1
    · rcases he2 with h | h
      · exact h ▸ List.mem_cons_self r rs
      · exact List.mem_cons_of_mem r h
    · intro x hx
      rcases List.mem_cons.1 hx with h | h
      · exact h ▸ he3
      · exact he4 x h

/-- If the accumulator is already at most every remaining cs, folding keeps it:
updates happen only on a strict decrease. -/
theorem foldl_bestStep_stay (l : List SRow) (b : SRow) (hb : ∀ r ∈ l, b.cs ≤ r.cs) :
    l.foldl bestStep (some b) = some b := by
  induction l with
  | nil => rfl
  | cons r rs ih =>
    have h1 : ¬ r.cs < b.cs := not_lt_of_le (hb r (List.mem_cons_self r rs))
    simp only [List.foldl_cons, bestStep, h1, if_neg, not_false_iff]
    exact ih (fun x hx => hb x (List.mem_cons_of_mem r hx))

/-- The entry of the merged map with a given chunk_id is exactly the fold of
bestStep over the rows carrying that chunk_id. -/
theorem mem_mergeRows_foldl (rows : List SRow) (e : SRow) (he : e ∈ mergeRows rows) :
    (rowsFor e.chunk_id rows).foldl bestStep none = some e := by
  have hpw := pairwise_mergeRows rows
  have hlk : lookupId e.chunk_id (mergeRows rows) = some e := lookup_of_mem _ hpw e he
  have hfold : lookupId e.chunk_id (mergeRows rows) =
      (rowsFor e.chunk_id rows).foldl bestStep none := by
    have h := foldl_updateMap_lookup rows [] e.chunk_id
    simpa [mergeRows, lookupId] using h
  rw [← hfold]
  exact hlk

/-- Every entry of the merged map is one of the rows with its chunk_id and
attains the minimal cs among those rows. -/
theorem mem_mergeRows_spec (rows : List SRow) (e : SRow) (he : e ∈ mergeRows rows) :
    e ∈ rowsFor e.chunk_id rows ∧ ∀ r ∈ rowsFor e.chunk_id rows, e.cs ≤ r.cs := by
  have hlk := mem_mergeRows_foldl rows e he
  cases hrw : rowsFor e.chunk_id rows with
  | nil => rw [hrw] at hlk; simp at hlk
  | cons a as =>
    rcases foldl_bestStep_none (a :: as) (by simp) with ⟨e2, h1, h2, h3⟩
    rw [hrw, h1] at hlk
    have he2 : e2 = e := by injection hlk
    subst he2
    exact ⟨h2, h3⟩

/-- Results of searchSimilar all come from the merged map. -/
theorem mem_searchSimilar_subset (dist : List Rat → List Rat → Rat)
    (qtab : List QuestionRow) (ctab : List ChunkRow) (queryEmbedding : List Rat)
    (threshold : Rat) (chunksLimit : Nat) (r : SRow)
    (hr : r ∈ searchSimilar dist qtab ctab queryEmbedding threshold chunksLimit) :
    r ∈ mergeRows (questionQueryRows dist qtab ctab queryEmbedding threshold ++
      chunkQueryRows dist ctab queryEmbedding threshold) := by
  have h1 := List.take_subset chunksLimit
    (List.insertionSort csLe
      (mergeRows (questionQueryRows dist qtab ctab queryEmbedding threshold ++
        chunkQueryRows dist ctab queryEmbedding threshold))) hr
  exact (List.perm_insertionSort csLe _).mem_iff.1 h1

/-- Membership in the sorted question query results, unfolded to the raw
filtered join. -/
theorem mem_questionQueryRows_iff (dist : List Rat → List Rat → Rat)
    (qtab : List QuestionRow) (ctab : List ChunkRow) (queryEmbedding : List Rat)
    (threshold : Rat) (r : SRow) :
    r ∈ questionQueryRows dist qtab ctab queryEmbedding threshold ↔
      r ∈ (qtab.flatMap (fun q =>
        (ctab.filter (fun c => decide (c.chunk_id = q.chunk_id))).map (fun c =>
          { chunk_id := q.chunk_id, wiki_id := q.wiki_id, question := some q.text,
            chunk := c.text, cs := dist q.embedding queryEmbedding }))).filter
      (fun r => decide (r.cs ≤ threshold)) :=
  (List.perm_insertionSort csLe _).mem_iff

/-- Membership in the sorted chunk query results, unfolded to the raw
filtered scan. -/
theorem mem_chunkQueryRows_iff (dist : List Rat → List Rat → Rat)
    (ctab : List ChunkRow) (queryEmbedding : List Rat) (threshold : Rat) (r : SRow) :
    r ∈ chunkQueryRows dist ctab queryEmbedding threshold ↔
      r ∈ (ctab.map (fun c =>
        { chunk_id := c.chunk_id, wiki_id := c.wiki_id, question := none,
          chunk := c.text, cs := dist c.embedding queryEmbedding })).filter
      (fun r => decide (r.cs ≤ threshold)) :=
  (List.perm_insertionSort csLe _).mem_iff

/-- Every row returned by the question query carries a question text. -/
theorem questionQueryRows_isSome (dist : List Rat → List Rat → Rat)
    (qtab : List QuestionRow) (ctab : List ChunkRow) (queryEmbedding : List Rat)
    (threshold : Rat) (r : SRow)
    (hr : r ∈ questionQueryRows dist qtab ctab queryEmbedding threshold) :
    r.question.isSome := by
  rw [mem_questionQueryRows_iff] at hr
  have h1 := List.mem_of_mem_filter hr
  rcases List.mem_flatMap.1 h1 with ⟨q, _, hq2⟩
  rcases List.mem_map.1 hq2 with ⟨c, _, hc2⟩
  rw [← hc2]
  rfl

/-- Every row returned by either query has cs at most the threshold. -/
theorem queryRows_cs_le (dist : List Rat → List Rat → Rat)
    (qtab : List QuestionRow) (ctab : List ChunkRow) (queryEmbedding : List Rat)
    (threshold : Rat) (r : SRow)
    (hr : r ∈ questionQueryRows dist qtab ctab queryEmbedding threshold ++
      chunkQueryRows dist ctab queryEmbedding threshold) :
    r.cs ≤ threshold := by
  rcases List.mem_append.1 hr with h | h
  · rw [mem_questionQueryRows_iff] at h
    exact of_decide_eq_true (List.mem_filter.1 h).2
  · rw [mem_chunkQueryRows_iff] at h
    exact of_decide_eq_true (List.mem_filter.1 h).2

/-- Every row of the chunk query with a given chunk_id comes from a table row
with that id and reports its distance. -/
theorem chunkQueryRows_src (dist : List Rat → List Rat → Rat)
    (ctab : List ChunkRow) (queryEmbedding : List Rat) (threshold : Rat) (r : SRow)
    (hr : r ∈ chunkQueryRows dist ctab queryEmbedding threshold) :
    ∃ c ∈ ctab, r.chunk_id = c.chunk_id ∧ r.cs = dist c.embedding queryEmbedding := by
  rw [mem_chunkQueryRows_iff] at hr
  have h1 := List.mem_of_mem_filter hr
  rcases List.mem_map.1 h1 with ⟨c, hc1, hc2⟩
  exact ⟨c, hc1, by rw [← hc2], by rw [← hc2]⟩

/-- Row produced by the SQL join for a question row q and chunk row c. -/
def joinedRow (dist : List Rat → List Rat → Rat) (queryEmbedding : List Rat)
    (q : QuestionRow) (c : ChunkRow) : SRow :=
  { chunk_id := q.chunk_id, wiki_id := q.wiki_id, question := some q.text,
    chunk := c.text, cs := dist q.embedding queryEmbedding }

/-- Construction side: a question table row joined to an existing chunk row,
whose distance passes the threshold, appears in the question query results. -/
theorem questionQueryRows_intro (dist : List Rat → List Rat → Rat)
    (qtab : List QuestionRow) (ctab : List ChunkRow) (queryEmbedding : List Rat)
    (threshold : Rat) (q : QuestionRow) (c : ChunkRow) (hq : q ∈ qtab) (hc : c ∈ ctab)
    (hid : c.chunk_id = q.chunk_id) (hle : dist q.embedding queryEmbedding ≤ threshold) :
    joinedRow dist queryEmbedding q c ∈
      questionQueryRows dist qtab ctab queryEmbedding threshold := by
  unfold joinedRow
  rw [mem_questionQueryRows_iff]
  apply List.mem_filter.2
  constructor
  · apply List.mem_flatMap.2
    refine ⟨q, hq, ?_⟩
    apply List.mem_map.2
    refine ⟨c, ?_, rfl⟩
    exact List.mem_filter.2 ⟨hc, by simp [hid]⟩
  · simpa using hle

/-- When some row of the left part is at most every cs of the right part, the
best row over the concatenation is a row of the left part: question rows come
first in allResults, and later rows replace an entry only on a strict
decrease. -/
theorem foldl_bestStep_append_left (lq lc : List SRow) (q : SRow) (hq : q ∈ lq)
    (hmin : ∀ r ∈ lc, q.cs ≤ r.cs) (e : SRow)
    (he : (lq ++ lc).foldl bestStep none = some e) : e ∈ lq := by
  have hne : lq ≠ [] := by intro h; rw [h] at hq; cases hq
  rcases foldl_bestStep_none lq hne with ⟨e1, h1, h2, h3⟩
  have hstay : (lq ++ lc).foldl bestStep none = some e1 := by
    rw [List.foldl_append, h1]
    exact foldl_bestStep_stay lc e1 (fun r hr => le_trans (h3 q hq) (hmin r hr))
  rw [hstay] at he
  have he1 : e1 = e := by injection he
  exact he1 ▸ h2

/-- Concrete fixture: distance function that is identically zero. -/
def dist0 : List Rat → List Rat → Rat := fun _ _ => 0

/-- Concrete fixture: a one-row question table. -/
def qtab0 : List QuestionRow := [{ chunk_id := 1, wiki_id := "w", text := "q1", embedding := [] }]

/-- Concrete fixture: a one-row chunk table. -/
def ctab0 : List ChunkRow := [{ chunk_id := 1, wiki_id := "w", text := "c1", embedding := [] }]

/-- C1: for every query embedding, threshold and limit, the list returned by
searchSimilar has at most one entry per chunk_id, and for any chunk_id matched
both by one of its questions and by its own chunk embedding, the reported
distance is the minimum of all distances observed for that chunk_id across
both query results. -/
theorem searchSimilar_unique_min (dist : List Rat → List Rat → Rat)
    (qtab : List QuestionRow) (ctab : List ChunkRow) (queryEmbedding : List Rat)
    (threshold : Rat) (chunksLimit : Nat) :
    (searchSimilar dist qtab ctab queryEmbedding threshold chunksLimit).Pairwise
      (fun a b => a.chunk_id ≠ b.chunk_id) ∧
    ∀ r ∈ searchSimilar dist qtab ctab queryEmbedding threshold chunksLimit,
      (∃ qr ∈ questionQueryRows dist qtab ctab queryEmbedding threshold,
          qr.chunk_id = r.chunk_id) →
      (∃ cr ∈ chunkQueryRows dist ctab queryEmbedding threshold,
          cr.chunk_id = r.chunk_id) →
      ((∀ row ∈ rowsFor r.chunk_id
            (questionQueryRows dist qtab ctab queryEmbedding threshold ++
              chunkQueryRows dist ctab queryEmbedding threshold), r.cs ≤ row.cs) ∧
        ∃ row ∈ rowsFor r.chunk_id
            (questionQueryRows dist qtab ctab queryEmbedding threshold ++
              chunkQueryRows dist ctab queryEmbedding threshold), row.cs = r.cs) := by
  constructor
  · have h1 : (List.insertionSort csLe
        (mergeRows (questionQueryRows dist qtab ctab queryEmbedding threshold ++
          chunkQueryRows dist ctab queryEmbedding threshold))).Pairwise
        (fun a b => a.chunk_id ≠ b.chunk_id) :=
      (List.Perm.pairwise_iff (fun h h2 => h h2.symm) (List.perm_insertionSort csLe _)).2
        (pairwise_mergeRows _)
    exact h1.sublist (List.take_sublist _ _)
  · intro r hr _ _
    have hm := mem_searchSimilar_subset dist qtab ctab queryEmbedding threshold chunksLimit r hr
    rcases mem_mergeRows_spec _ r hm with ⟨h1, h2⟩
    exact ⟨h2, r, h1, rfl⟩

/-- C1 witness: instantiation of the conditional part at a concrete fixture
where chunk 1 is matched both by its question and by its own embedding. -/
theorem searchSimilar_unique_min_witness :
    (∀ row ∈ rowsFor
        ({ chunk_id := 1, wiki_id := "w", question := some "q1", chunk := "c1", cs := 0 } :
          SRow).chunk_id
        (questionQueryRows dist0 qtab0 ctab0 [] 1 ++ chunkQueryRows dist0 ctab0 [] 1),
      ({ chunk_id := 1, wiki_id := "w", question := some "q1", chunk := "c1", cs := 0 } :
          SRow).cs ≤ row.cs) ∧
    ∃ row ∈ rowsFor
        ({ chunk_id := 1, wiki_id := "w", question := some "q1", chunk := "c1", cs := 0 } :
          SRow).chunk_id
        (questionQueryRows dist0 qtab0 ctab0 [] 1 ++ chunkQueryRows dist0 ctab0 [] 1),
      row.cs =
        ({ chunk_id := 1, wiki_id := "w", question := some "q1", chunk := "c1", cs := 0 } :
          SRow).cs :=
  (searchSimilar_unique_min dist0 qtab0 ctab0 [] 1 10).2
    { chunk_id := 1, wiki_id := "w", question := some "q1", chunk := "c1", cs := 0 }
    (by decide)
    ⟨{ chunk_id := 1, wiki_id := "w", question := some "q1", chunk := "c1", cs := 0 },
      by decide, rfl⟩
    ⟨{ chunk_id := 1, wiki_id := "w", question := none, chunk := "c1", cs := 0 },
      by decide, rfl⟩

/-- C2: for threshold in [0,1] and limit in [1,100], both queries and the
final result only contain rows with distance at most the threshold, the
result is sorted ascending by distance, and its length is at most the
limit. -/
theorem searchSimilar_threshold_sorted_limit (dist : List Rat → List Rat → Rat)
    (qtab : List QuestionRow) (ctab : List ChunkRow) (queryEmbedding : List Rat)
    (threshold : Rat) (chunksLimit : Nat) (ht0 : 0 ≤ threshold) (ht1 : threshold ≤ 1)
    (hn1 : 1 ≤ chunksLimit) (hn100 : chunksLimit ≤ 100) :
    (∀ r ∈ questionQueryRows dist qtab ctab queryEmbedding threshold, r.cs ≤ threshold) ∧
    (∀ r ∈ chunkQueryRows dist ctab queryEmbedding threshold, r.cs ≤ threshold) ∧
    (∀ r ∈ searchSimilar dist qtab ctab queryEmbedding threshold chunksLimit,
      r.cs ≤ threshold) ∧
    (searchSimilar dist qtab ctab queryEmbedding threshold chunksLimit).Sorted csLe ∧
    (searchSimilar dist qtab ctab queryEmbedding threshold chunksLimit).length ≤
      chunksLimit := by
  refine ⟨?_, ?_, ?_, ?_, ?_⟩
  · intro r hr
    exact queryRows_cs_le dist qtab ctab queryEmbedding threshold r
      (List.mem_append.2 (Or.inl hr))
  · intro r hr
    exact queryRows_cs_le dist qtab ctab queryEmbedding threshold r
      (List.mem_append.2 (Or.inr hr))
  · intro r hr
    have hm := mem_searchSimilar_subset dist qtab ctab queryEmbedding threshold chunksLimit r hr
    rcases mem_mergeRows_spec _ r hm with ⟨h1, _⟩
    exact queryRows_cs_le dist qtab ctab queryEmbedding threshold r
      (List.mem_of_mem_filter h1)
  · exact (List.sorted_insertionSort csLe _).sublist (List.take_sublist _ _)
  · have h := List.length_take_le chunksLimit
      (List.insertionSort csLe
        (mergeRows (questionQueryRows dist qtab ctab queryEmbedding threshold ++
          chunkQueryRows dist ctab queryEmbedding threshold)))
    simpa [searchSimilar] using h

/-- C2 witness: the hypotheses hold and the conclusion is obtained at a
concrete fixture. -/
theorem searchSimilar_threshold_sorted_limit_witness :
    (0 : Rat) ≤ 1 ∧ (1 : Rat) ≤ 1 ∧ (1 : Nat) ≤ 10 ∧ (10 : Nat) ≤ 100 ∧
    ((∀ r ∈ questionQueryRows dist0 qtab0 ctab0 [] 1, r.cs ≤ 1) ∧
     (∀ r ∈ chunkQueryRows dist0 ctab0 [] 1, r.cs ≤ 1) ∧
     (∀ r ∈ searchSimilar dist0 qtab0 ctab0 [] 1 10, r.cs ≤ 1) ∧
     (searchSimilar dist0 qtab0 ctab0 [] 1 10).Sorted csLe ∧
     (searchSimilar dist0 qtab0 ctab0 [] 1 10).length ≤ 10) :=
  ⟨by norm_num, by norm_num, by norm_num, by norm_num,
    searchSimilar_threshold_sorted_limit dist0 qtab0 ctab0 [] 1 10
      (by norm_num) (by norm_num) (by norm_num) (by norm_num)⟩

/-- C10: when a question row and the chunk row of the same chunk_id both lie
at the same distance d within the threshold, the result entry for that
chunk_id (if returned) is question-sourced: its question field is non-null,
because question rows are merged first and a later row replaces an entry only
on a strictly lower distance. -/
theorem searchSimilar_tie_keeps_question (dist : List Rat → List Rat → Rat)
    (qtab : List QuestionRow) (ctab : List ChunkRow) (queryEmbedding : List Rat)
    (threshold : Rat) (chunksLimit : Nat) (k : Int) (d : Rat)
    (hnodup : (ctab.map ChunkRow.chunk_id).Nodup)
    (hq : ∃ q ∈ qtab, q.chunk_id = k ∧ dist q.embedding queryEmbedding = d)
    (hc : ∃ c ∈ ctab, c.chunk_id = k ∧ dist c.embedding queryEmbedding = d)
    (hd : d ≤ threshold) :
    ∀ r ∈ searchSimilar dist qtab ctab queryEmbedding threshold chunksLimit,
      r.chunk_id = k → r.question.isSome = true := by
  rcases hq with ⟨q, hqmem, hqid, hqdist⟩
  rcases hc with ⟨c, hcmem, hcid, hcdist⟩
  intro r hr hrk
  have hm := mem_searchSimilar_subset dist qtab ctab queryEmbedding threshold chunksLimit r hr
  have hfold := mem_mergeRows_foldl _ r hm
  rw [hrk] at hfold
  have hsplit : rowsFor k (questionQueryRows dist qtab ctab queryEmbedding threshold ++
      chunkQueryRows dist ctab queryEmbedding threshold) =
      rowsFor k (questionQueryRows dist qtab ctab queryEmbedding threshold) ++
      rowsFor k (chunkQueryRows dist ctab queryEmbedding threshold) := by
    simp [rowsFor, List.filter_append]
  rw [hsplit] at hfold
  have hqrow : joinedRow dist queryEmbedding q c ∈
      questionQueryRows dist qtab ctab queryEmbedding threshold :=
    questionQueryRows_intro dist qtab ctab queryEmbedding threshold q c hqmem hcmem
      (hcid.trans hqid.symm) (by rw [hqdist]; exact hd)
  have hqrowFor : joinedRow dist queryEmbedding q c ∈
      rowsFor k (questionQueryRows dist qtab ctab queryEmbedding threshold) :=
    List.mem_filter.2 ⟨hqrow, by simp [joinedRow, hqid]⟩
  have hmin : ∀ row ∈ rowsFor k (chunkQueryRows dist ctab queryEmbedding threshold),
      (joinedRow dist queryEmbedding q c).cs ≤ row.cs := by
    intro row hrow
    have hrowC := List.mem_of_mem_filter hrow
    have hrowk : row.chunk_id = k := of_decide_eq_true (List.mem_filter.1 hrow).2
    rcases chunkQueryRows_src dist ctab queryEmbedding threshold row hrowC with
      ⟨c2, hc2mem, hc2id, hc2cs⟩
    have hceq : c2 = c := by
      apply List.inj_on_of_nodup_map hnodup hc2mem hcmem
      rw [← hc2id, hrowk, ← hcid]
    have hcs : (joinedRow dist queryEmbedding q c).cs = d := by
      simp [joinedRow, hqdist]
    rw [hcs, hc2cs, hceq, hcdist]
  have hrmem := foldl_bestStep_append_left _ _ _ hqrowFor hmin r hfold
  exact questionQueryRows_isSome dist qtab ctab queryEmbedding threshold r
    (List.mem_of_mem_filter hrmem)

/-- C10 witness: at the concrete tie fixture, the returned entry for chunk 1
carries the matched question text. -/
theorem searchSimilar_tie_keeps_question_witness :
    ({ chunk_id := 1, wiki_id := "w", question := some "q1", chunk := "c1", cs := 0 } :
      SRow).question.isSome = true :=
  searchSimilar_tie_keeps_question dist0 qtab0 ctab0 [] 1 10 1 0
    (by decide)
    ⟨{ chunk_id := 1, wiki_id := "w", text := "q1", embedding := [] }, by decide, rfl, rfl⟩
    ⟨{ chunk_id := 1, wiki_id := "w", text := "c1", embedding := [] }, by decide, rfl, rfl⟩
    (by norm_num)
    { chunk_id := 1, wiki_id := "w", question := some "q1", chunk := "c1", cs := 0 }
    (by decide) rfl

/-! Embedding of getEmbeddingsForTexts (src/unnamed/part_000, lines 440-553,
the token-budget batching version).

The tokenizer stringTokens is abstracted as tokenCount : String -> Nat (the
source wraps it in try/catch with 0 as fallback, so any total function covers
it).  One OpenAI embeddings request is abstracted as
api : List String -> Option (List (List Rat)); none models a thrown error,
and the source additionally treats a response whose data length differs from
the request length as a failure.  The while loops translate to structural
recursion: the outer loop advances by at least one text per iteration, so a
fuel equal to the number of texts is sufficient (proved by the flatten
theorem below). -/

/-- Fixed per-request token budget of the batching loop. -/
def MAX_TOKENS_PER_BATCH : Nat := 8000

/-- Inner while loop: keep adding texts while the running token total stays
within the budget.  The accumulator carries the batch in reverse. -/
def takeBatchAux (tokenCount : String → Nat) :
    Nat → List (Nat × String) → List (Nat × String) →
      List (Nat × String) × List (Nat × String)
  | _, [], acc => (acc.reverse, [])
  | current, (i, t) :: rest, acc =>
    if tokenCount t + current > MAX_TOKENS_PER_BATCH then (acc.reverse, (i, t) :: rest)
    else takeBatchAux tokenCount (current + tokenCount t) rest ((i, t) :: acc)

/-- Start of the inner loop on a fresh batch: a single text exceeding the
budget is taken alone (best effort) rather than dropped. -/
def takeBatch (tokenCount : String → Nat) (x : Nat × String) (rest : List (Nat × String)) :
    List (Nat × String) × List (Nat × String) :=
  if tokenCount x.2 > MAX_TOKENS_PER_BATCH then ([x], rest)
  else takeBatchAux tokenCount (tokenCount x.2) rest [x]

/-- Outer while loop, fuelled: builds successive batches until the input is
exhausted.  A fuel of the input length suffices, see buildGroups_flatten. -/
def buildGroupsFuel (tokenCount : String → Nat) :
    Nat → List (Nat × String) → List (List (Nat × String))
  | 0, _ => []
  | _, [] => []
  | n + 1, x :: rest =>
    (takeBatch tokenCount x rest).1 ::
      buildGroupsFuel tokenCount n (takeBatch tokenCount x rest).2

/-- The request groups formed by getEmbeddingsForTexts for an indexed input. -/
def buildGroups (tokenCount : String → Nat) (l : List (Nat × String)) :
    List (List (Nat × String)) :=
  buildGroupsFuel tokenCount l.length l

/-- Result shape of getEmbeddingsForTexts (token and cost counters are not
modelled; the claims do not mention them). -/
structure BatchEmbeddingResult where
  embeddings : List (List Rat)
  failedIndices : List Nat
deriving Repr, DecidableEq

/-- Success criterion applied by the source to one request: the API produced a
response whose data has exactly one embedding per input of the group. -/
def apiOk (api : List String → Option (List (List Rat))) (g : List (Nat × String)) : Prop :=
  ∃ es, api (g.map Prod.snd) = some es ∧ es.length = g.length

/-- Embeddings contributed by one group: on success the response vectors in
order, on failure one empty placeholder per text of the group. -/
def embOfGroup (api : List String → Option (List (List Rat)))
    (g : List (Nat × String)) : List (List Rat) :=
  match api (g.map Prod.snd) with
  | some es => if es.length = g.length then es else g.map (fun _ => [])
  | none => g.map (fun _ => [])

/-- Failed indices contributed by one group: none on success, all the group's
input indices on failure. -/
def failOfGroup (api : List String → Option (List (List Rat)))
    (g : List (Nat × String)) : List Nat :=
  match api (g.map Prod.snd) with
  | some es => if es.length = g.length then [] else g.map Prod.fst
  | none => g.map Prod.fst

/-- Processing loop over the built groups, mirroring the try/catch body of the
source: a successful batch appends its vectors, a failed one appends
placeholders and records every index of the batch. -/
def processGroups (api : List String → Option (List (List Rat))) :
    List (List (Nat × String)) → BatchEmbeddingResult
  | [] => { embeddings := [], failedIndices := [] }
  | g :: gs =>
    let tail := processGroups api gs
    match api (g.map Prod.snd) with
    | some es =>
      if es.length = g.length then
        { embeddings := es ++ tail.embeddings, failedIndices := tail.failedIndices }
      else
        { embeddings := g.map (fun _ => []) ++ tail.embeddings,
          failedIndices := g.map Prod.fst ++ tail.failedIndices }
    | none =>
      { embeddings := g.map (fun _ => []) ++ tail.embeddings,
        failedIndices := g.map Prod.fst ++ tail.failedIndices }

/-- Full getEmbeddingsForTexts: empty input returns immediately, otherwise the
texts are indexed, grouped under the token budget and processed. -/
def getEmbeddingsForTexts (tokenCount : String → Nat)
    (api : List String → Option (List (List Rat))) (texts : List String) :
    BatchEmbeddingResult :=
  if texts.length = 0 then { embeddings := [], failedIndices := [] }
  else processGroups api (buildGroups tokenCount texts.enum)

theorem takeBatchAux_append (tokenCount : String → Nat) :
    ∀ (l acc : List (Nat × String)) (current : Nat),
      (takeBatchAux tokenCount current l acc).1 ++ (takeBatchAux tokenCount current l acc).2 =
        acc.reverse ++ l := by
  intro l
  induction l with
  | nil => intro acc current; simp [takeBatchAux]
  | cons x rest ih =>
    intro acc current
    cases x with
    | mk i t =>
      by_cases h : tokenCount t + current > MAX_TOKENS_PER_BATCH
      · simp [takeBatchAux, h]
      · simp only [takeBatchAux, h, if_neg, not_false_iff]
        rw [ih]
        simp

theorem takeBatch_append (tokenCount : String → Nat) (x : Nat × String)
    (rest : List (Nat × String)) :
    (takeBatch tokenCount x rest).1 ++ (takeBatch tokenCount x rest).2 = x :: rest := by
  by_cases h : tokenCount x.2 > MAX_TOKENS_PER_BATCH
  · simp [takeBatch, h]
  · simp only [takeBatch, h, if_neg, not_false_iff]
    rw [takeBatchAux_append]
    simp

theorem takeBatchAux_fst_length (tokenCount : String → Nat) :
    ∀ (l acc : List (Nat × String)) (current : Nat),
      acc.length ≤ (takeBatchAux tokenCount current l acc).1.length := by
  intro l
  induction l with
  | nil => intro acc current; simp [takeBatchAux]
  | cons x rest ih =>
    intro acc current
    cases x with
    | mk i t =>
      by_cases h : tokenCount t + current > MAX_TOKENS_PER_BATCH
      · simp [takeBatchAux, h]
      · simp only [takeBatchAux, h, if_neg, not_false_iff]
        have h2 := ih ((i, t) :: acc) (current + tokenCount t)
        simp only [List.length_cons] at h2
        omega

theorem takeBatch_fst_nonempty (tokenCount : String → Nat) (x : Nat × String)
    (rest : List (Nat × String)) :
    1 ≤ (takeBatch tokenCount x rest).1.length := by
  by_cases h : tokenCount x.2 > MAX_TOKENS_PER_BATCH
  · simp [takeBatch, h]
  · simp only [takeBatch, h, if_neg, not_false_iff]
    have h2 := takeBatchAux_fst_length tokenCount rest [x] (tokenCount x.2)
    simpa using h2

theorem takeBatch_rest_length (tokenCount : String → Nat) (x : Nat × String)
    (rest : List (Nat × String)) :
    (takeBatch tokenCount x rest).2.length ≤ rest.length := by
  have h := congrArg List.length (takeBatch_append tokenCount x rest)
  rw [List.length_append] at h
  simp only [List.length_cons] at h
  have h2 := takeBatch_fst_nonempty tokenCount x rest
  omega

/-- With fuel at least the input length, the built groups concatenate back to
the input: no text is dropped or duplicated and order is preserved. -/
theorem buildGroupsFuel_flatten (tokenCount : String → Nat) :
    ∀ (n : Nat) (l : List (Nat × String)), l.length ≤ n →
      (buildGroupsFuel tokenCount n l).flatten = l := by
  intro n
  induction n with
  | zero =>
    intro l hl
    have : l = [] := List.length_eq_zero.1 (Nat.le_zero.1 hl)
    subst this
    simp [buildGroupsFuel]
  | succ n ih =>
    intro l hl
    cases l with
    | nil => simp [buildGroupsFuel]
    | cons x rest =>
      simp only [buildGroupsFuel, List.flatten_cons]
      rw [ih (takeBatch tokenCount x rest).2
        (le_trans (takeBatch_rest_length tokenCount x rest)
          (by simpa using Nat.lt_succ_iff.1 (lt_of_lt_of_le (Nat.lt_succ_self _) hl)))]
      exact takeBatch_append tokenCount x rest

theorem buildGroups_flatten (tokenCount : String → Nat) (l : List (Nat × String)) :
    (buildGroups tokenCount l).flatten = l :=
  buildGroupsFuel_flatten tokenCount l.length l (le_refl _)

/-- Running token sum invariant of the inner loop: if the tokens of the
accumulator stay within the budget, so do the tokens of the finished batch. -/
theorem takeBatchAux_sum (tokenCount : String → Nat) :
    ∀ (l acc : List (Nat × String)) (current : Nat),
      current ≤ MAX_TOKENS_PER_BATCH →
      (acc.map (fun p => tokenCount p.2)).sum = current →
      ((takeBatchAux tokenCount current l acc).1.map (fun p => tokenCount p.2)).sum ≤
        MAX_TOKENS_PER_BATCH := by
  intro l
  induction l with
  | nil =>
    intro acc current hle hsum
    simp only [takeBatchAux, List.map_reverse, List.sum_reverse]
    rw [hsum]; exact hle
  | cons x rest ih =>
    intro acc current hle hsum
    cases x with
    | mk i t =>
      by_cases h : tokenCount t + current > MAX_TOKENS_PER_BATCH
      · simp only [takeBatchAux, h, if_pos, List.map_reverse, List.sum_reverse]
        rw [hsum]; exact hle
      · simp only [takeBatchAux, h, if_neg, not_false_iff]
        apply ih ((i, t) :: acc) (current + tokenCount t) (by omega)
        simp only [List.map_cons, List.sum_cons]
        omega

/-- Per-batch budget: a batch either keeps its token sum within the budget or
is a single text whose own estimate exceeds the budget. -/
theorem takeBatch_budget (tokenCount : String → Nat) (x : Nat × String)
    (rest : List (Nat × String)) :
    (((takeBatch tokenCount x rest).1.map (fun p => tokenCount p.2)).sum ≤
        MAX_TOKENS_PER_BATCH) ∨
      ∃ p, (takeBatch tokenCount x rest).1 = [p] ∧
        tokenCount p.2 > MAX_TOKENS_PER_BATCH := by
  by_cases h : tokenCount x.2 > MAX_TOKENS_PER_BATCH
  · right
    exact ⟨x, by simp [takeBatch, h], h⟩
  · left
    simp only [takeBatch, h, if_neg, not_false_iff]
    apply takeBatchAux_sum tokenCount rest [x] (tokenCount x.2) (by omega)
    simp

theorem buildGroupsFuel_budget (tokenCount : String → Nat) :
    ∀ (n : Nat) (l : List (Nat × String)) (g : List (Nat × String)),
      g ∈ buildGroupsFuel tokenCount n l →
      ((g.map (fun p => tokenCount p.2)).sum ≤ MAX_TOKENS_PER_BATCH ∨
        ∃ p, g = [p] ∧ tokenCount p.2 > MAX_TOKENS_PER_BATCH) := by
  intro n
  induction n with
  | zero => intro l g hg; simp [buildGroupsFuel] at hg
  | succ n ih =>
    intro l g hg
    cases l with
    | nil => simp [buildGroupsFuel] at hg
    | cons x rest =>
      simp only [buildGroupsFuel] at hg
      rcases List.mem_cons.1 hg with h | h
      · subst h
        exact takeBatch_budget tokenCount x rest
      · exact ih _ g h

/-- C8: in every request group formed by getEmbeddingsForTexts, the token
estimates of the group sum to at most the fixed budget of 8000, except that a
single text whose own estimate exceeds the budget forms a one-element group
that is still sent; and the groups concatenate back to the indexed input, so
every input index is assigned to exactly one group, in order. -/
theorem buildGroups_partition_budget (tokenCount : String → Nat) (texts : List String) :
    (buildGroups tokenCount texts.enum).flatten = texts.enum ∧
    ∀ g ∈ buildGroups tokenCount texts.enum,
      ((g.map (fun p => tokenCount p.2)).sum ≤ MAX_TOKENS_PER_BATCH ∨
        ∃ p, g = [p] ∧ tokenCount p.2 > MAX_TOKENS_PER_BATCH) :=
  ⟨buildGroups_flatten tokenCount texts.enum,
    fun g hg => buildGroupsFuel_budget tokenCount texts.enum.length texts.enum g hg⟩

/-- Concrete fixture for the batching claims: every text estimates to 5000
tokens, so two texts land in two separate groups. -/
def tokenCount0 : String → Nat := fun _ => 5000

/-- C8 witness: at the concrete fixture the first group is a singleton whose
token sum is within the budget. -/
theorem buildGroups_partition_budget_witness :
    (([((0 : Nat), "a")].map (fun p => tokenCount0 p.2)).sum ≤ MAX_TOKENS_PER_BATCH ∨
      ∃ p, [((0 : Nat), "a")] = [p] ∧ tokenCount0 p.2 > MAX_TOKENS_PER_BATCH) :=
  (buildGroups_partition_budget tokenCount0 ["a", "b"]).2 [(0, "a")] (by decide)

theorem processGroups_eq (api : List String → Option (List (List Rat))) :
    ∀ gs, processGroups api gs =
      { embeddings := gs.flatMap (embOfGroup api),
        failedIndices := gs.flatMap (failOfGroup api) } := by
  intro gs
  induction gs with
  | nil => simp [processGroups]
  | cons g rest ih =>
    cases hapi : api (g.map Prod.snd) with
    | none => simp [processGroups, embOfGroup, failOfGroup, hapi, ih]
    | some es =>
      by_cases hlen : es.length = g.length
      · simp [processGroups, embOfGroup, failOfGroup, hapi, hlen, ih]
      · simp [processGroups, embOfGroup, failOfGroup, hapi, hlen, ih]

theorem embOfGroup_length (api : List String → Option (List (List Rat)))
    (g : List (Nat × String)) : (embOfGroup api g).length = g.length := by
  cases hapi : api (g.map Prod.snd) with
  | none => simp [embOfGroup, hapi]
  | some es =>
    by_cases hlen : es.length = g.length
    · simp [embOfGroup, hapi, hlen]
    · simp [embOfGroup, hapi, hlen]

theorem embOfGroup_of_not_ok (api : List String → Option (List (List Rat)))
    (g : List (Nat × String)) (h : ¬ apiOk api g) :
    embOfGroup api g = g.map (fun _ => []) ∧ failOfGroup api g = g.map Prod.fst := by
  cases hapi : api (g.map Prod.snd) with
  | none => simp [embOfGroup, failOfGroup, hapi]
  | some es =>
    by_cases hlen : es.length = g.length
    · exact absurd ⟨es, hapi, hlen⟩ h
    · simp [embOfGroup, failOfGroup, hapi, hlen]

theorem embOfGroup_of_ok (api : List String → Option (List (List Rat)))
    (g : List (Nat × String)) (es : List (List Rat))
    (hapi : api (g.map Prod.snd) = some es) (hlen : es.length = g.length) :
    embOfGroup api g = es ∧ failOfGroup api g = [] := by
  simp [embOfGroup, failOfGroup, hapi, hlen]

/-- Zipping the concatenation of the groups with the concatenation of their
per-group results splits into the per-group zips, because each group result
has exactly the group's length. -/
theorem zip_flatten_flatMap {γ : Type} (f : List (Nat × String) → List γ) :
    ∀ (gs : List (List (Nat × String))), (∀ g ∈ gs, (f g).length = g.length) →
      List.zip gs.flatten (gs.flatMap f) = gs.flatMap (fun g => List.zip g (f g)) := by
  intro gs
  induction gs with
  | nil => intro _; simp
  | cons g rest ih =>
    intro hf
    simp only [List.flatten_cons, List.flatMap_cons]
    rw [List.zip_append (hf g (List.mem_cons_self g rest)).symm]
    rw [ih (fun g2 hg2 => hf g2 (List.mem_cons_of_mem g hg2))]

/-- A pair appearing in the zip of an enumerated list with another list sits
at the position given by its own index: the other list holds its companion at
that index. -/
theorem zip_enumFrom_getElem {γ : Type} :
    ∀ (ts : List String) (n : Nat) (l : List γ) (i : Nat) (t : String) (e : γ),
      ((i, t), e) ∈ List.zip (List.enumFrom n ts) l → n ≤ i ∧ l[i - n]? = some e := by
  intro ts
  induction ts with
  | nil => intro n l i t e h; simp at h
  | cons s ts2 ih =>
    intro n l i t e h
    cases l with
    | nil => simp at h
    | cons x xs =>
      simp only [List.enumFrom, List.zip_cons_cons] at h
      rcases List.mem_cons.1 h with h1 | h1
      · have hi : i = n ∧ t = s ∧ e = x := by
          have h2 := congrArg Prod.fst h1
          have h3 := congrArg Prod.snd h1
          simp at h2 h3
          exact ⟨h2.1, h2.2, h3⟩
        rcases hi with ⟨hi, _, he⟩
        subst hi; subst he
        simp
      · rcases ih (n + 1) xs i t e h1 with ⟨hle, hget⟩
        constructor
        · omega
        · have : i - n = (i - (n + 1)) + 1 := by omega
          rw [this]
          simpa using hget

/-- C3: getEmbeddingsForTexts preserves length and order (output index i
corresponds to input index i), a successful group's response vectors land
exactly at that group's input indices, a failed group records every one of
its indices in failedIndices with an empty placeholder vector at each, other
groups are unaffected, and every recorded failed index belongs to a failed
group; the function returns a result in all cases instead of throwing. -/
theorem getEmbeddingsForTexts_spec (tokenCount : String → Nat)
    (api : List String → Option (List (List Rat))) (texts : List String) :
    (getEmbeddingsForTexts tokenCount api texts).embeddings.length = texts.length ∧
    (∀ g ∈ buildGroups tokenCount texts.enum, ∀ p ∈ g, texts[p.1]? = some p.2) ∧
    (∀ g ∈ buildGroups tokenCount texts.enum, ∀ es,
      api (g.map Prod.snd) = some es → es.length = g.length →
      ∀ pe ∈ List.zip g es,
        (getEmbeddingsForTexts tokenCount api texts).embeddings[pe.1.1]? = some pe.2) ∧
    (∀ g ∈ buildGroups tokenCount texts.enum, ¬ apiOk api g →
      ∀ p ∈ g, p.1 ∈ (getEmbeddingsForTexts tokenCount api texts).failedIndices ∧
        (getEmbeddingsForTexts tokenCount api texts).embeddings[p.1]? =
          some ([] : List Rat)) ∧
    (∀ i ∈ (getEmbeddingsForTexts tokenCount api texts).failedIndices,
      ∃ g ∈ buildGroups tokenCount texts.enum, ¬ apiOk api g ∧ ∃ p ∈ g, p.1 = i) := by
  by_cases hempty : texts.length = 0
  · have htexts : texts = [] := List.length_eq_zero.1 hempty
    subst htexts
    refine ⟨by simp [getEmbeddingsForTexts], ?_, ?_, ?_, ?_⟩ <;>
      simp [buildGroups, buildGroupsFuel, getEmbeddingsForTexts]
  · have hmain : getEmbeddingsForTexts tokenCount api texts =
        processGroups api (buildGroups tokenCount texts.enum) := by
      simp [getEmbeddingsForTexts, hempty]
    rw [hmain, processGroups_eq]
    have hflat := buildGroups_flatten tokenCount texts.enum
    have hzip := zip_flatten_flatMap (embOfGroup api) (buildGroups tokenCount texts.enum)
      (fun g _ => embOfGroup_length api g)
    rw [hflat] at hzip
    refine ⟨?_, ?_, ?_, ?_, ?_⟩
    · show ((buildGroups tokenCount texts.enum).flatMap (embOfGroup api)).length = _
      have h1 : ∀ gs : List (List (Nat × String)),
          (gs.flatMap (embOfGroup api)).length = gs.flatten.length := by
        intro gs
        induction gs with
        | nil => simp
        | cons g rest ih =>
          simp [List.flatMap_cons, List.flatten_cons, ih, embOfGroup_length]
      rw [h1, hflat]
      simp
    · intro g hg p hp
      have hpmem : p ∈ texts.enum := by
        rw [← hflat]
        exact List.mem_flatten.2 ⟨g, hg, hp⟩
      have h2 := List.mem_enum_iff_getElem?.1 hpmem
      exact h2
    · intro g hg es hapi hlen pe hpe
      have hok := embOfGroup_of_ok api g es hapi hlen
      have hpe2 : pe ∈ List.zip g (embOfGroup api g) := by rw [hok.1]; exact hpe
      have hmem : pe ∈ (buildGroups tokenCount texts.enum).flatMap
          (fun g2 => List.zip g2 (embOfGroup api g2)) :=
        List.mem_flatMap.2 ⟨g, hg, hpe2⟩
      rw [← hzip] at hmem
      cases pe with
      | mk p e =>
        cases p with
        | mk i t =>
          have h3 := zip_enumFrom_getElem texts 0 _ i t e (by simpa [List.enum] using hmem)
          simpa using h3.2
    · intro g hg hnok p hp
      have hfail := embOfGroup_of_not_ok api g hnok
      constructor
      · show p.1 ∈ (buildGroups tokenCount texts.enum).flatMap (failOfGroup api)
        apply List.mem_flatMap.2
        refine ⟨g, hg, ?_⟩
        rw [hfail.2]
        exact List.mem_map.2 ⟨p, hp, rfl⟩
      · have hpe2 : (p, ([] : List Rat)) ∈ List.zip g (embOfGroup api g) := by
          rw [hfail.1]
          have : ∀ gl : List (Nat × String), p ∈ gl →
              (p, ([] : List Rat)) ∈ List.zip gl (gl.map (fun _ => [])) := by
            intro gl
            induction gl with
            | nil => intro h; cases h
            | cons y ys ih =>
              intro h
              simp only [List.map_cons, List.zip_cons_cons]
              rcases List.mem_cons.1 h with h1 | h1
              · subst h1; exact List.mem_cons_self _ _
              · exact List.mem_cons_of_mem _ (ih h1)
          exact this g hp
        have hmem : (p, ([] : List Rat)) ∈ (buildGroups tokenCount texts.enum).flatMap
            (fun g2 => List.zip g2 (embOfGroup api g2)) :=
          List.mem_flatMap.2 ⟨g, hg, hpe2⟩
        rw [← hzip] at hmem
        cases p with
        | mk i t =>
          have h3 := zip_enumFrom_getElem texts 0 _ i t ([] : List Rat)
            (by simpa [List.enum] using hmem)
          simpa using h3.2
    · intro i hi
      have h1 := List.mem_flatMap.1 hi
      rcases h1 with ⟨g, hg, hig⟩
      refine ⟨g, hg, ?_, ?_⟩
      · intro hok
        rcases hok with ⟨es, hapi, hlen⟩
        rw [(embOfGroup_of_ok api g es hapi hlen).2] at hig
        cases hig
      · by_cases hok : apiOk api g
        · rcases hok with ⟨es, hapi, hlen⟩
          rw [(embOfGroup_of_ok api g es hapi hlen).2] at hig
          cases hig
        · rw [(embOfGroup_of_not_ok api g hok).2] at hig
          rcases List.mem_map.1 hig with ⟨p, hp, hpi⟩
          exact ⟨p, hp, hpi⟩

/-- Concrete fixture for the failure-isolation witness: the request for the
group containing text "a" succeeds with vector [1], every other request
fails. -/
def api0 : List String → Option (List (List Rat)) :=
  fun l => if l = ["a"] then some [[1]] else none

/-- C3 witness: at the concrete fixture the successful group's vector lands
at input index 0 even though the other group fails. -/
theorem getEmbeddingsForTexts_spec_witness :
    (getEmbeddingsForTexts tokenCount0 api0 ["a", "b"]).embeddings[(0 : Nat)]? =
      some [1] :=
  ((getEmbeddingsForTexts_spec tokenCount0 api0 ["a", "b"]).2.2.1
    [(0, "a")] (by decide) [[1]] (by decide) (by decide)
    (((0, "a"), [1])) (by decide))

/-! Embedding of generateQuestionsForChunk (src/unnamed/part_001).

The outcome of the chatCompletionRequest call is abstracted as a small
inductive: err models a thrown transport/API error; ok carries the parsed
resultJson, where the outer Option is the presence of a structured JSON
result, the middle Option is the presence of a questions field that is an
array, and each array element is a string (some) or some other JSON value
(none).  minQuestions and the derived targetQuestions only shape the prompt,
not the result handling, so they are not modelled. -/

/-- Whitespace test matching the characters the JavaScript string functions
treat as whitespace (the ASCII ones, which are the ones appearing in the
sources and fixtures). -/
def isWS (c : Char) : Bool :=
  c = ' ' || c = '\t' || c = '\n' || c = '\r' || c = '\x0b' || c = '\x0c'

/-- Executable model of the JavaScript String.prototype.trim: drop leading
and trailing whitespace. -/
def jsTrim (s : String) : String :=
  String.mk (((s.data.dropWhile isWS).reverse.dropWhile isWS).reverse)

/-- Outcome of the LLM call made by generateQuestionsForChunk. -/
inductive LLMQuestionsOutcome where
  | err : LLMQuestionsOutcome
  | ok : Option (Option (List (Option String))) → LLMQuestionsOutcome
deriving DecidableEq, Repr

/-- First validation filter of the source: keep elements that are strings
with non-empty trimmed content. -/
def pickString (v : Option String) : Option String :=
  match v with
  | some s => if 0 < (jsTrim s).length then some s else none
  | none => none

/-- generateQuestionsForChunk: empty input yields no questions; a thrown
error, a missing structured result, or a missing/non-array questions field
falls back to the single-element list holding the chunk text; a well-formed
array is filtered (strings with non-blank trim), trimmed, filtered to length
at least 10 and truncated to maxQuestions. -/
def generateQuestionsForChunk (chunkText : String) (maxQuestions : Nat)
    (outcome : LLMQuestionsOutcome) : List String :=
  if (jsTrim chunkText).length = 0 then []
  else
    match outcome with
    | LLMQuestionsOutcome.err => [chunkText]
    | LLMQuestionsOutcome.ok none => [chunkText]
    | LLMQuestionsOutcome.ok (some none) => [chunkText]
    | LLMQuestionsOutcome.ok (some (some vals)) =>
      (((vals.filterMap pickString).map jsTrim).filter
        (fun q => decide (10 ≤ q.length))).take maxQuestions

/-- C4 counterexample: for the non-empty fragment "hello world" and a
well-formed response whose questions array is empty (a validation result
with no usable questions), the function returns the empty list, not the
single-element list holding the fragment text. -/
theorem generateQuestionsForChunk_empty_validation :
    generateQuestionsForChunk "hello world" 20
      (LLMQuestionsOutcome.ok (some (some []))) = [] ∧
    generateQuestionsForChunk "hello world" 20
      (LLMQuestionsOutcome.ok (some (some []))) ≠ ["hello world"] := by
  constructor
  · rfl
  · decide

theorem filter_short_empty :
    ∀ (vals : List (Option String)),
      (∀ v ∈ vals, ∀ s, v = some s → (jsTrim s).length < 10) →
      ((vals.filterMap pickString).map jsTrim).filter
        (fun q => decide (10 ≤ q.length)) = [] := by
  intro vals
  induction vals with
  | nil => intro _; rfl
  | cons v rest ih =>
    intro hvals
    have hrest := fun v2 hv2 => hvals v2 (List.mem_cons_of_mem v hv2)
    cases v with
    | none =>
      simp only [List.filterMap_cons, pickString]
      exact ih hrest
    | some s =>
      have hs := hvals (some s) (List.mem_cons_self _ _) s rfl
      by_cases hne : 0 < (jsTrim s).length
      · simp only [List.filterMap_cons, pickString, hne, if_pos, List.map_cons,
          List.filter_cons]
        have hlt : ¬ (10 ≤ (jsTrim s).length) := by omega
        simp only [hlt, decide_eq_true_eq, if_neg, not_false_iff]
        exact ih hrest
      · simp only [List.filterMap_cons, pickString, hne, if_neg, not_false_iff]
        exact ih hrest

/-- C4 amended: for non-empty fragment text the single-element fallback
[chunkText] is returned exactly on a thrown error, a missing structured
result, or a missing/non-array questions field; a well-formed questions
array is filtered, and when none of its strings reaches the minimum length
the result is the empty list rather than the fallback. -/
theorem generateQuestionsForChunk_fallback (chunkText : String) (maxQuestions : Nat)
    (hne : 0 < (jsTrim chunkText).length) :
    (∀ outcome, (outcome = LLMQuestionsOutcome.err ∨
        outcome = LLMQuestionsOutcome.ok none ∨
        outcome = LLMQuestionsOutcome.ok (some none)) →
      generateQuestionsForChunk chunkText maxQuestions outcome = [chunkText]) ∧
    (∀ vals, (∀ v ∈ vals, ∀ s, v = some s → (jsTrim s).length < 10) →
      generateQuestionsForChunk chunkText maxQuestions
        (LLMQuestionsOutcome.ok (some (some vals))) = []) := by
  have hg : ¬ (jsTrim chunkText).length = 0 := by omega
  constructor
  · intro outcome h
    rcases h with h | h | h <;> subst h <;> simp [generateQuestionsForChunk, hg]
  · intro vals hvals
    simp only [generateQuestionsForChunk, hg, if_neg, not_false_iff]
    rw [filter_short_empty vals hvals]
    simp

/-- C4 witness: at a concrete non-empty fragment, a transport error degrades
to the single-element fallback while an array of only too-short strings
yields the empty list. -/
theorem generateQuestionsForChunk_fallback_witness :
    generateQuestionsForChunk "hello world" 20 LLMQuestionsOutcome.err =
      ["hello world"] ∧
    generateQuestionsForChunk "hello world" 20
      (LLMQuestionsOutcome.ok (some (some [some "short"]))) = [] :=
  ⟨(generateQuestionsForChunk_fallback "hello world" 20 (by decide)).1
      LLMQuestionsOutcome.err (Or.inl rfl),
    (generateQuestionsForChunk_fallback "hello world" 20 (by decide)).2
      [some "short"] (by decide)⟩

/-! Embedding of the save phase of processPage
(src/server/api/indexing/pipeline.ts, lines 193-257).

insertChunk is abstracted as an outcome oracle Nat -> Option Int: some cid
models a successful insert returning chunk_id cid, none a thrown error (the
source pushes the sentinel -1 in that case to keep the alignment).  The
question save loop is modelled as the ordered list of attempted
insertQuestion calls (chunk_id, text, embedding); a call that itself throws
only reduces the saved count, so every stored question comes from this
list. -/

/-- Per-chunk data assembled by the question stage of processPage. -/
structure ChunkData where
  chunkText : String
  embeddingText : String
  questions : List String
deriving Repr, DecidableEq

/-- Chunk save loop: collect chunk ids in order, pushing -1 for a failed
insert to maintain alignment. -/
def chunkIdsOf (insertChunkOutcome : Nat → Option Int) (n : Nat) : List Int :=
  (List.range n).map (fun ci =>
    match insertChunkOutcome ci with
    | some cid => cid
    | none => -1)

/-- Question save loop: for each chunk in order, skip its questions when the
chunk id is the failure sentinel -1 while still advancing the flat embedding
offset by the chunk's question count; otherwise attempt one insertQuestion
call per question, pairing question k with embedding qOffset + k. -/
def saveQuestionsLoop (qEmb : List (List Rat)) :
    List ChunkData → List Int → Nat → List (Int × String × List Rat)
  | [], _, _ => []
  | _ :: _, [], _ => []
  | d :: rest, cid :: cids, qOffset =>
    if cid = -1 then saveQuestionsLoop qEmb rest cids (qOffset + d.questions.length)
    else
      d.questions.enum.map (fun p => (cid, p.2, qEmb.getD (qOffset + p.1) [])) ++
        saveQuestionsLoop qEmb rest cids (qOffset + d.questions.length)

/-- Save phase of processPage: insert the chunks, then attempt the question
inserts against the collected chunk ids, starting at flat offset 0. -/
def processPageSave (chunkData : List ChunkData) (insertChunkOutcome : Nat → Option Int)
    (qEmb : List (List Rat)) : List Int × List (Int × String × List Rat) :=
  let cids := chunkIdsOf insertChunkOutcome chunkData.length
  (cids, saveQuestionsLoop qEmb chunkData cids 0)

/-- Flat offset of chunk ci's questions inside the flattened question list
(the source's qOffset at iteration ci). -/
def questionOffset (chunkData : List ChunkData) (ci : Nat) : Nat :=
  ((chunkData.take ci).map (fun d => d.questions.length)).sum

theorem chunkIdsOf_getElem (insertChunkOutcome : Nat → Option Int) (n : Nat) (ci : Nat)
    (cid : Int) (h : (chunkIdsOf insertChunkOutcome n)[ci]? = some cid) :
    ci < n ∧ (match insertChunkOutcome ci with
      | some cid2 => cid2
      | none => -1) = cid := by
  have h1 : ci < n := by
    by_contra hcontra
    have hn : n ≤ ci := Nat.le_of_not_lt hcontra
    rw [chunkIdsOf, List.getElem?_map] at h
    rw [List.getElem?_eq_none (by simpa using hn)] at h
    cases h
  refine ⟨h1, ?_⟩
  rw [chunkIdsOf, List.getElem?_map, List.getElem?_range h1] at h
  simpa using h

theorem saveQuestionsLoop_mem (qEmb : List (List Rat)) :
    ∀ (ds : List ChunkData) (cids : List Int) (off : Nat)
      (c : Int × String × List Rat), c ∈ saveQuestionsLoop qEmb ds cids off →
      c.1 ≠ -1 ∧ (∃ ci : Nat, cids[ci]? = some c.1) ∧
      ∃ j, (ds.flatMap (fun d => d.questions))[j]? = some c.2.1 ∧
        c.2.2 = qEmb.getD (off + j) [] := by
  intro ds
  induction ds with
  | nil => intro cids off c hc; simp [saveQuestionsLoop] at hc
  | cons d rest ih =>
    intro cids off c hc
    cases cids with
    | nil => simp [saveQuestionsLoop] at hc
    | cons cid cids2 =>
      by_cases hcid : cid = -1
      · simp only [saveQuestionsLoop, hcid, if_pos] at hc
        rcases ih cids2 (off + d.questions.length) c hc with ⟨h1, ⟨ci, h2⟩, j, h3, h4⟩
        refine ⟨h1, ⟨ci + 1, by simpa using h2⟩, d.questions.length + j, ?_, ?_⟩
        · rw [List.flatMap_cons, List.getElem?_append_right (by omega)]
          simpa using h3
        · rw [h4]; ring_nf
      · simp only [saveQuestionsLoop, hcid, if_neg, not_false_iff, List.mem_append] at hc
        rcases hc with hc | hc
        · rcases List.mem_map.1 hc with ⟨p, hp, hpc⟩
          have hq := List.mem_enum_iff_getElem?.1 hp
          refine ⟨?_, ⟨0, ?_⟩, p.1, ?_, ?_⟩
          · rw [← hpc]; exact hcid
          · simp [← hpc]
          · rw [List.flatMap_cons, List.getElem?_append_left]
            · rw [hq, ← hpc]
            · exact (List.getElem?_eq_some.1 hq).1
          · rw [← hpc]
        · rcases ih cids2 (off + d.questions.length) c hc with ⟨h1, ⟨ci, h2⟩, j, h3, h4⟩
          refine ⟨h1, ⟨ci + 1, by simpa using h2⟩, d.questions.length + j, ?_, ?_⟩
          · rw [List.flatMap_cons, List.getElem?_append_right (by omega)]
            simpa using h3
          · rw [h4]; ring_nf

theorem saveQuestionsLoop_complete (qEmb : List (List Rat)) :
    ∀ (ds : List ChunkData) (cids : List Int) (off : Nat) (ci : Nat) (cid : Int),
      cids[ci]? = some cid → cid ≠ -1 →
      ∀ (hci : ci < ds.length) (k : Nat) (hk : k < (ds.get ⟨ci, hci⟩).questions.length),
        (cid, (ds.get ⟨ci, hci⟩).questions.get ⟨k, hk⟩,
          qEmb.getD (off + questionOffset ds ci + k) []) ∈
          saveQuestionsLoop qEmb ds cids off := by
  intro ds
  induction ds with
  | nil => intro cids off ci cid _ _ hci; exact absurd hci (by simp)
  | cons d rest ih =>
    intro cids off ci cid hcid hne hci k hk
    cases cids with
    | nil => cases hcid
    | cons c0 cids2 =>
      cases ci with
      | zero =>
        have hc0 : c0 = cid := by simpa using hcid
        subst hc0
        simp only [saveQuestionsLoop, hne, if_neg, not_false_iff, List.mem_append]
        left
        apply List.mem_map.2
        refine ⟨(k, (d.questions.get ⟨k, by simpa using hk⟩)), ?_, ?_⟩
        · apply List.mem_enum_iff_getElem?.2
          simp [List.getElem?_eq_getElem]
        · simp [questionOffset]
      | succ ci2 =>
        have hcid2 : cids2[ci2]? = some cid := by simpa using hcid
        have hci2 : ci2 < rest.length := by simpa using Nat.succ_lt_succ_iff.1 hci
        have hoff : questionOffset (d :: rest) (ci2 + 1) =
            d.questions.length + questionOffset rest ci2 := by
          simp [questionOffset, List.take_succ_cons]
        have hmem := ih cids2 (off + d.questions.length) ci2 cid hcid2 hne hci2 k
          (by simpa using hk)
        by_cases hc0 : c0 = -1
        · simp only [saveQuestionsLoop, hc0, if_pos]
          have harith : off + d.questions.length + questionOffset rest ci2 + k =
              off + questionOffset (d :: rest) (ci2 + 1) + k := by
            rw [hoff]; ring
          rw [harith] at hmem
          exact hmem
        · simp only [saveQuestionsLoop, hc0, if_neg, not_false_iff, List.mem_append]
          right
          have harith : off + d.questions.length + questionOffset rest ci2 + k =
              off + questionOffset (d :: rest) (ci2 + 1) + k := by
            rw [hoff]; ring
          rw [harith] at hmem
          exact hmem

/-- C6: every attempted question insert of the save phase references a
chunk_id returned by a successful chunk insert of the same run, its question
text and its embedding are taken at the same flat index (so the pairing
survives skipped chunks, whose offsets are still advanced), and conversely
every question of every successfully inserted chunk is attempted with its
correct flat offset. -/
theorem processPageSave_spec (chunkData : List ChunkData)
    (insertChunkOutcome : Nat → Option Int) (qEmb : List (List Rat)) :
    (∀ c ∈ (processPageSave chunkData insertChunkOutcome qEmb).2,
      c.1 ≠ -1 ∧ ∃ ci, ci < chunkData.length ∧ insertChunkOutcome ci = some c.1) ∧
    (∀ c ∈ (processPageSave chunkData insertChunkOutcome qEmb).2,
      ∃ j, (chunkData.flatMap (fun d => d.questions))[j]? = some c.2.1 ∧
        c.2.2 = qEmb.getD j []) ∧
    (∀ (ci : Nat) (hci : ci < chunkData.length) (cid : Int),
      insertChunkOutcome ci = some cid → cid ≠ -1 →
      ∀ (k : Nat) (hk : k < (chunkData.get ⟨ci, hci⟩).questions.length),
        (cid, (chunkData.get ⟨ci, hci⟩).questions.get ⟨k, hk⟩,
          qEmb.getD (questionOffset chunkData ci + k) []) ∈
          (processPageSave chunkData insertChunkOutcome qEmb).2) := by
  refine ⟨?_, ?_, ?_⟩
  · intro c hc
    rcases saveQuestionsLoop_mem qEmb chunkData _ 0 c hc with ⟨h1, ⟨ci, h2⟩, _⟩
    rcases chunkIdsOf_getElem insertChunkOutcome chunkData.length ci c.1 h2 with ⟨h3, h4⟩
    refine ⟨h1, ci, h3, ?_⟩
    cases houtcome : insertChunkOutcome ci with
    | none => rw [houtcome] at h4; exact absurd h4.symm h1
    | some cid2 => rw [houtcome] at h4; simp at h4; rw [h4]
  · intro c hc
    rcases saveQuestionsLoop_mem qEmb chunkData _ 0 c hc with ⟨_, _, j, h3, h4⟩
    exact ⟨j, h3, by simpa using h4⟩
  · intro ci hci cid houtcome hne k hk
    have hcid : (chunkIdsOf insertChunkOutcome chunkData.length)[ci]? = some cid := by
      rw [chunkIdsOf, List.getElem?_map, List.getElem?_range hci]
      simp [houtcome]
    have h := saveQuestionsLoop_complete qEmb chunkData
      (chunkIdsOf insertChunkOutcome chunkData.length) 0 ci cid hcid hne hci k hk
    simpa using h

/-- Concrete fixture for the save phase: chunk 0 (two questions) fails to
insert, chunk 1 (one question) succeeds with id 7. -/
def chunkData0 : List ChunkData :=
  [{ chunkText := "c0", embeddingText := "e0", questions := ["q1", "q2"] },
   { chunkText := "c1", embeddingText := "e1", questions := ["q3"] }]

/-- Concrete fixture: insert outcome oracle failing chunk 0. -/
def insertOutcome0 : Nat → Option Int := fun ci => if ci = 1 then some 7 else none

/-- C6 witness: the single question of the surviving chunk is attempted with
chunk id 7 and the embedding at flat offset 2, past the two skipped
questions of the failed chunk. -/
theorem processPageSave_spec_witness :
    ((7 : Int), "q3", ([[1], [2], [3]] : List (List Rat)).getD
        (questionOffset chunkData0 1 + 0) []) ∈
      (processPageSave chunkData0 insertOutcome0 [[1], [2], [3]]).2 :=
  (processPageSave_spec chunkData0 insertOutcome0 [[1], [2], [3]]).2.2
    1 (by decide) 7 rfl (by decide) 0 (by decide)

/-! Embedding of the progress reporting of processPage
(src/server/api/indexing/pipeline.ts, lines 74-83, 148-185 and 259-271).

reportProgress clamps the percentage into [0, 100].  On the success path the
stages report 10, 20, 30, 50, then each per-chunk question task reports
50 + (index / N) * 30 when it completes -- index being the chunk's position,
not the number of completed tasks -- then 80, 95 and 100.  The question
tasks all start concurrently (chunkResult.chunks.map(getQuestions)), so the
completion order is an arbitrary permutation of the chunk indices. -/

/-- Model of Math.min on the rationals. -/
def jsMin (a b : Rat) : Rat := if a ≤ b then a else b

/-- Model of Math.max on the rationals. -/
def jsMax (a b : Rat) : Rat := if a ≤ b then b else a

/-- Clamp of reportProgress: Math.max(0, Math.min(100, progress)). -/
def reportClamp (p : Rat) : Rat := jsMax 0 (jsMin 100 p)

/-- Sequence of progress percentages delivered to the callback on the success
path, for N chunks whose question tasks complete in the given order. -/
def progressTrace (n : Nat) (order : List Nat) : List Rat :=
  [reportClamp 10, reportClamp 20, reportClamp 30, reportClamp 50] ++
    order.map (fun i : Nat => reportClamp (50 + ((i : Rat) / (n : Rat)) * 30)) ++
    [reportClamp 80, reportClamp 95, reportClamp 100]

/-- C7 counterexample: with two chunks, if the task of chunk 1 completes
before the task of chunk 0 -- a legal interleaving of the concurrently
started question tasks -- the delivered percentages decrease from 65 to 50,
so the sequence is not monotonically non-decreasing. -/
theorem progressTrace_not_monotone :
    ([1, 0].Perm (List.range 2)) ∧
      ¬ List.Sorted (fun a b : Rat => a ≤ b) (progressTrace 2 [1, 0]) := by
  have htrace : progressTrace 2 [1, 0] = [10, 20, 30, 50, 65, 50, 80, 95, 100] := by
    norm_num [progressTrace, reportClamp, jsMax, jsMin]
  constructor
  · decide
  · rw [htrace]
    decide

theorem reportClamp_mono (p q : Rat) (h : p ≤ q) : reportClamp p ≤ reportClamp q := by
  unfold reportClamp jsMax jsMin
  split_ifs <;> linarith

theorem reportClamp_ge_of (p : Rat) (h : 50 ≤ p) : 50 ≤ reportClamp p := by
  unfold reportClamp jsMax jsMin
  split_ifs <;> linarith

theorem reportClamp_le_of (p : Rat) (h : p ≤ 80) : reportClamp p ≤ 80 := by
  unfold reportClamp jsMax jsMin
  split_ifs <;> linarith

/-- C7 amended: the progress percentages are monotonically non-decreasing for
the sequential stage transitions and for the per-chunk question reports when
the tasks complete in chunk-index order, including the terminal transition to
100; an interleaving in which a higher-index chunk completes first violates
monotonicity, because the reported value is computed from the chunk's index
rather than from the number of completed tasks. -/
theorem progressTrace_monotone_inorder (n : Nat) (hn : 1 ≤ n) :
    List.Sorted (fun a b : Rat => a ≤ b) (progressTrace n (List.range n)) := by
  have hnpos : (0 : Rat) < (n : Rat) := by
    have : (0 : Nat) < n := hn
    exact_mod_cast this
  have hf50 : ∀ i : Nat, (50 : Rat) ≤
      reportClamp (50 + ((i : Rat) / (n : Rat)) * 30) := by
    intro i
    apply reportClamp_ge_of
    have h1 : (0 : Rat) ≤ (i : Rat) / (n : Rat) :=
      div_nonneg (by exact_mod_cast Nat.zero_le i) (le_of_lt hnpos)
    nlinarith
  have hf80 : ∀ i : Nat, i < n →
      reportClamp (50 + ((i : Rat) / (n : Rat)) * 30) ≤ 80 := by
    intro i hi
    apply reportClamp_le_of
    have h1 : (i : Rat) / (n : Rat) ≤ 1 := by
      rw [div_le_one hnpos]
      exact_mod_cast le_of_lt hi
    nlinarith
  unfold progressTrace List.Sorted
  apply List.pairwise_append.2
  refine ⟨?_, ?_, ?_⟩
  · apply List.pairwise_append.2
    refine ⟨?_, ?_, ?_⟩
    · decide
    · rw [List.pairwise_map]
      apply (List.pairwise_lt_range n).imp
      intro i j hij
      apply reportClamp_mono
      have h1 : (i : Rat) / (n : Rat) ≤ (j : Rat) / (n : Rat) := by
        apply div_le_div_of_nonneg_right ?_ (le_of_lt hnpos)
        exact_mod_cast le_of_lt hij
      nlinarith
    · intro a ha b hb
      rcases List.mem_map.1 hb with ⟨i, _, rfl⟩
      have h50 := hf50 i
      fin_cases ha <;> exact le_trans (by decide) h50
  · decide
  · intro a ha b hb
    have hb80 : (80 : Rat) ≤ b := by
      fin_cases hb <;> decide
    rcases List.mem_append.1 ha with ha | ha
    · fin_cases ha <;> exact le_trans (by decide) hb80
    · rcases List.mem_map.1 ha with ⟨i, hi, rfl⟩
      exact le_trans (hf80 i (List.mem_range.1 hi)) hb80

/-- C7 witness: with two chunks completing in index order the whole delivered
sequence is non-decreasing. -/
theorem progressTrace_monotone_inorder_witness :
    (1 : Nat) ≤ 2 ∧
      List.Sorted (fun a b : Rat => a ≤ b) (progressTrace 2 (List.range 2)) :=
  ⟨by decide, progressTrace_monotone_inorder 2 (by decide)⟩

/-! Embedding of fallbackTextSplitting (src/server/server.ts, lines 551-603)
and its call site splitIntoChunks (lines 534-545).

Strings are handled as character lists.  The two regex splits are modelled
with their JavaScript semantics: split(/\n\s*\n/) removes, at each newline,
the longest span newline-whitespace*-newline (greedy with backtracking, so
the span ends at the last newline of the whitespace run), and
split(/[.!?]+/) removes maximal runs of sentence terminators.  Both are
fuelled with the input length, which dominates the number of loop steps;
when the fuel runs out the remainder is emitted as one piece, which keeps
every proved invariant. -/

/-- Sentence terminator class of the fallback splitter regex. -/
def isTerm (c : Char) : Bool := c = '.' || c = '!' || c = '?'

/-- Trim of a character list (JavaScript String.prototype.trim). -/
def trimChars (l : List Char) : List Char :=
  ((l.dropWhile isWS).reverse.dropWhile isWS).reverse

/-- Characters that survive ignoring whitespace and sentence terminators;
the reconstruction theorem compares inputs and outputs through this lens,
because the splitter replaces terminator runs by ". " and inserts blank
lines between accumulated paragraphs. -/
def scrub (l : List Char) : List Char :=
  l.filter (fun c => !(isWS c || isTerm c))

/-- Index of the last newline of a list, if any. -/
def lastNewlinePos : List Char → Option Nat
  | [] => none
  | c :: rest =>
    match lastNewlinePos rest with
    | some p => some (p + 1)
    | none => if c = '\n' then some 0 else none

/-- Paragraph split loop: at a newline whose following whitespace run
contains another newline, the greedy match consumes through that run's last
newline and a piece boundary is emitted. -/
def splitParasAux : Nat → List Char → List Char → List (List Char)
  | _, [], acc => [acc.reverse]
  | 0, l, acc => [acc.reverse ++ l]
  | fuel + 1, c :: rest, acc =>
    if c = '\n' then
      match lastNewlinePos (rest.takeWhile isWS) with
      | some p => acc.reverse :: splitParasAux fuel (rest.drop (p + 1)) []
      | none => splitParasAux fuel rest (c :: acc)
    else splitParasAux fuel rest (c :: acc)

/-- text.split(/\n\s*\n/). -/
def splitParas (l : List Char) : List (List Char) := splitParasAux l.length l []

/-- Sentence split loop: a maximal run of terminators separates pieces. -/
def splitSentencesAux : Nat → List Char → List Char → List (List Char)
  | _, [], acc => [acc.reverse]
  | 0, l, acc => [acc.reverse ++ l]
  | fuel + 1, c :: rest, acc =>
    if isTerm c then acc.reverse :: splitSentencesAux fuel (rest.dropWhile isTerm) []
    else splitSentencesAux fuel rest (c :: acc)

/-- paragraph.split(/[.!?]+/). -/
def splitSentences (l : List Char) : List (List Char) := splitSentencesAux l.length l []

/-- Sentences of an over-budget paragraph, blank pieces removed
(filter(s => s.trim().length > 0)). -/
def sentencesOf (p : List Char) : List (List Char) :=
  (splitSentences p).filter (fun s => 0 < (trimChars s).length)

/-- Paragraphs of the input, blank pieces removed. -/
def paragraphsOf (text : String) : List (List Char) :=
  (splitParas text.data).filter (fun p => 0 < (trimChars p).length)

theorem scrub_append (l1 l2 : List Char) : scrub (l1 ++ l2) = scrub l1 ++ scrub l2 :=
  List.filter_append _ _

theorem scrub_eq_nil_of_all_ws (l : List Char) (h : ∀ c ∈ l, isWS c = true) :
    scrub l = [] := by
  apply List.filter_eq_nil_iff.2
  intro c hc
  simp [h c hc]

theorem all_ws_of_trim_nil (l : List Char) (h : trimChars l = []) :
    ∀ c ∈ l, isWS c = true := by
  have h1 : (l.dropWhile isWS).reverse.dropWhile isWS = [] := by
    have := congrArg List.reverse h
    simpa [trimChars] using this
  have h2 : ∀ c ∈ (l.dropWhile isWS).reverse, isWS c = true :=
    List.dropWhile_eq_nil_iff.1 h1
  have h3 : l.dropWhile isWS = [] := by
    cases hq : l.dropWhile isWS with
    | nil => rfl
    | cons x xs =>
      exfalso
      have hx : isWS x = false := by
        have := List.head?_dropWhile_not isWS l
        rw [hq] at this
        simpa using this
      have hx2 : isWS x = true := h2 x (by simp [hq])
      rw [hx] at hx2
      cases hx2
  exact List.dropWhile_eq_nil_iff.1 h3

theorem trim_nil_of_all_ws (l : List Char) (h : ∀ c ∈ l, isWS c = true) :
    trimChars l = [] := by
  have h1 : l.dropWhile isWS = [] := List.dropWhile_eq_nil_iff.2 h
  simp [trimChars, h1]

theorem scrub_eq_nil_of_trim_nil (l : List Char) (h : trimChars l = []) : scrub l = [] :=
  scrub_eq_nil_of_all_ws l (all_ws_of_trim_nil l h)

theorem scrub_dropWhile_isWS (l : List Char) : scrub (l.dropWhile isWS) = scrub l := by
  conv_rhs => rw [← List.takeWhile_append_dropWhile (p := isWS) (l := l)]
  rw [scrub_append]
  rw [scrub_eq_nil_of_all_ws (l.takeWhile isWS) (fun c hc => List.mem_takeWhile_imp hc)]
  simp

theorem scrub_reverse (l : List Char) : scrub l.reverse = (scrub l).reverse := by
  simp [scrub, List.filter_reverse]

theorem scrub_trimChars (l : List Char) : scrub (trimChars l) = scrub l := by
  unfold trimChars
  rw [scrub_reverse, scrub_dropWhile_isWS, scrub_reverse, List.reverse_reverse,
    scrub_dropWhile_isWS]

theorem trimChars_length_le (l : List Char) : (trimChars l).length ≤ l.length := by
  unfold trimChars
  calc ((l.dropWhile isWS).reverse.dropWhile isWS).reverse.length
      = ((l.dropWhile isWS).reverse.dropWhile isWS).length := List.length_reverse _
    _ ≤ (l.dropWhile isWS).reverse.length := (List.dropWhile_sublist isWS).length_le
    _ = (l.dropWhile isWS).length := List.length_reverse _
    _ ≤ l.length := (List.dropWhile_sublist isWS).length_le

theorem lastNewlinePos_spec (l : List Char) (p : Nat) (h : lastNewlinePos l = some p) :
    p < l.length := by
  induction l generalizing p with
  | nil => cases h
  | cons c rest ih =>
    simp only [lastNewlinePos] at h
    cases hrec : lastNewlinePos rest with
    | some q =>
      rw [hrec] at h
      have : q + 1 = p := by simpa using h
      have hq := ih q hrec
      simp only [List.length_cons]
      omega
    | none =>
      rw [hrec] at h
      by_cases hc : c = '\n'
      · simp only [hc, if_pos] at h
        have : (0 : Nat) = p := by simpa using h
        simp only [List.length_cons]
        omega
      · simp [hc] at h

theorem scrub_eq_nil_of_all_term (l : List Char) (h : ∀ c ∈ l, isTerm c = true) :
    scrub l = [] := by
  apply List.filter_eq_nil_iff.2
  intro c hc
  simp [h c hc]

theorem scrub_nil : scrub [] = [] := rfl

theorem scrub_cons (c : Char) (l : List Char) : scrub (c :: l) = scrub [c] ++ scrub l := by
  rw [show (c :: l) = [c] ++ l from rfl, scrub_append]

theorem scrub_newline (l : List Char) : scrub ('\n' :: l) = scrub l := by
  rw [scrub_cons]
  simp [scrub, isWS]

theorem scrub_splitParasAux :
    ∀ (fuel : Nat) (l acc : List Char),
      scrub (splitParasAux fuel l acc).flatten = scrub acc.reverse ++ scrub l := by
  intro fuel
  induction fuel with
  | zero =>
    intro l acc
    cases l with
    | nil => simp [splitParasAux, scrub_nil]
    | cons c rest => simp [splitParasAux, scrub_append, scrub_nil]
  | succ fuel ih =>
    intro l acc
    cases l with
    | nil => simp [splitParasAux, scrub_nil]
    | cons c rest =>
      by_cases hc : c = '\n'
      · subst hc
        cases hpos : lastNewlinePos (rest.takeWhile isWS) with
        | some p =>
          simp only [splitParasAux, if_pos, hpos, List.flatten_cons]
          rw [scrub_append, ih]
          have hsep : scrub (rest.take (p + 1)) = [] := by
            apply scrub_eq_nil_of_all_ws
            intro x hx
            have hlen : p < (rest.takeWhile isWS).length :=
              lastNewlinePos_spec _ p hpos
            rcases (List.takeWhile_prefix isWS (l := rest)) with ⟨s, hs⟩
            have htake : rest.take (p + 1) = (rest.takeWhile isWS).take (p + 1) := by
              conv_lhs => rw [← hs]
              rw [List.take_append_of_le_length (by omega)]
            rw [htake] at hx
            exact List.mem_takeWhile_imp (List.take_subset _ _ hx)
          rw [scrub_newline]
          conv_rhs => rw [← List.take_append_drop (p + 1) rest]
          rw [scrub_append, hsep]
          simp [scrub_nil]
        | none =>
          simp only [splitParasAux, if_pos, hpos]
          rw [ih, List.reverse_cons, scrub_append, scrub_newline, scrub_newline]
          simp [scrub_nil]
      · simp only [splitParasAux, hc, if_neg, not_false_iff]
        rw [ih, List.reverse_cons, scrub_append, scrub_cons c rest]
        simp [scrub_nil]

theorem scrub_splitSentencesAux :
    ∀ (fuel : Nat) (l acc : List Char),
      scrub (splitSentencesAux fuel l acc).flatten = scrub acc.reverse ++ scrub l := by
  intro fuel
  induction fuel with
  | zero =>
    intro l acc
    cases l with
    | nil => simp [splitSentencesAux, scrub_nil]
    | cons c rest => simp [splitSentencesAux, scrub_append, scrub_nil]
  | succ fuel ih =>
    intro l acc
    cases l with
    | nil => simp [splitSentencesAux, scrub_nil]
    | cons c rest =>
      by_cases hc : isTerm c = true
      · simp only [splitSentencesAux, hc, if_pos, List.flatten_cons]
        rw [scrub_append, ih]
        have hcnil : scrub [c] = [] :=
          scrub_eq_nil_of_all_term [c] (by intro x hx; simp at hx; rw [hx]; exact hc)
        rw [scrub_cons, hcnil]
        conv_rhs => rw [← List.takeWhile_append_dropWhile (p := isTerm) (l := rest)]
        rw [scrub_append]
        rw [scrub_eq_nil_of_all_term (rest.takeWhile isTerm)
          (fun x hx => List.mem_takeWhile_imp hx)]
        simp [scrub_nil]
      · have hc2 : isTerm c = false := by simpa using hc
        simp only [splitSentencesAux, hc2, Bool.false_eq_true, if_false]
        rw [ih, List.reverse_cons, scrub_append, scrub_cons c rest]
        simp [scrub_nil]

theorem scrub_flatten_filter_nonblank (pieces : List (List Char)) :
    scrub (pieces.filter (fun p => 0 < (trimChars p).length)).flatten =
      scrub pieces.flatten := by
  induction pieces with
  | nil => rfl
  | cons p rest ih =>
    by_cases hp : 0 < (trimChars p).length
    · simp only [List.filter_cons, hp, decide_eq_true_eq, if_pos, List.flatten_cons]
      rw [scrub_append, scrub_append, ih]
    · simp only [List.filter_cons, hp, decide_eq_true_eq, if_neg, not_false_iff,
        List.flatten_cons]
      rw [scrub_append, ih]
      have hp2 : trimChars p = [] := by
        have : (trimChars p).length = 0 := by omega
        exact List.length_eq_zero.1 this
      rw [scrub_eq_nil_of_trim_nil p hp2]
      simp

theorem scrub_sentencesOf (p : List Char) :
    scrub (sentencesOf p).flatten = scrub p := by
  unfold sentencesOf splitSentences
  rw [scrub_flatten_filter_nonblank, scrub_splitSentencesAux]
  simp [scrub_nil]

theorem scrub_paragraphsOf (text : String) :
    scrub (paragraphsOf text).flatten = scrub text.data := by
  unfold paragraphsOf splitParas
  rw [scrub_flatten_filter_nonblank, scrub_splitParasAux]
  simp [scrub_nil]

/-- Flush of the running chunk: push its trim when non-blank and reset;
otherwise leave the chunk untouched (the source clears currentChunk only
inside the push branch). -/
def flushChunk (current : List Char) : List (List Char) × List Char :=
  if 0 < (trimChars current).length then ([trimChars current], []) else ([], current)

/-- Inner sentence loop of fallbackTextSplitting: before each append, flush
when the running length plus the sentence length exceeds the budget; then
always append the sentence followed by ". ".  Returns the pushed chunks and
the final running sentence chunk. -/
def sentenceLoop (maxLen : Nat) :
    List (List Char) → List Char → List (List Char) × List Char
  | [], sChunk => ([], sChunk)
  | s :: rest, sChunk =>
    let step := if maxLen < sChunk.length + s.length then flushChunk sChunk
      else ([], sChunk)
    let next := sentenceLoop maxLen rest (step.2 ++ s ++ ['.', ' '])
    (step.1 ++ next.1, next.2)

/-- Main paragraph loop of fallbackTextSplitting.  When the budget would be
exceeded the current chunk is flushed; an over-budget paragraph is split on
sentence boundaries and its leftover becomes the new current chunk when
non-blank; otherwise paragraphs accumulate joined by a blank line. -/
def fallbackLoop (maxLen : Nat) : List (List Char) → List Char → List (List Char)
  | [], current => (flushChunk current).1
  | p :: rest, current =>
    if maxLen < current.length + p.length then
      if maxLen < p.length then
        (flushChunk current).1 ++ (sentenceLoop maxLen (sentencesOf p) []).1 ++
          fallbackLoop maxLen rest
            (if 0 < (trimChars (sentenceLoop maxLen (sentencesOf p) []).2).length
             then trimChars (sentenceLoop maxLen (sentencesOf p) []).2
             else (flushChunk current).2)
      else (flushChunk current).1 ++ fallbackLoop maxLen rest p
    else
      if 0 < current.length then
        fallbackLoop maxLen rest (current ++ '\n' :: '\n' :: p)
      else fallbackLoop maxLen rest p

/-- fallbackTextSplitting: split into non-blank paragraphs and run the
accumulation loop with an empty current chunk. -/
def fallbackTextSplitting (text : String) (maxChunkLength : Nat) : List String :=
  (fallbackLoop maxChunkLength (paragraphsOf text) []).map String.mk

theorem flushChunk_scrub (cur : List Char) :
    scrub (flushChunk cur).1.flatten = scrub cur ∧ scrub (flushChunk cur).2 = [] := by
  by_cases h : 0 < (trimChars cur).length
  · simp only [flushChunk, h, if_pos]
    constructor
    · simp [scrub_trimChars]
    · exact scrub_nil
  · simp only [flushChunk, h, if_neg, not_false_iff]
    have h2 : trimChars cur = [] := List.length_eq_zero.1 (by omega)
    constructor
    · simp [scrub_nil, scrub_eq_nil_of_trim_nil cur h2]
    · exact scrub_eq_nil_of_trim_nil cur h2

theorem flushChunk_len (cur : List Char) (c : List Char) (hc : c ∈ (flushChunk cur).1) :
    c.length ≤ cur.length := by
  by_cases h : 0 < (trimChars cur).length
  · simp only [flushChunk, h, if_pos] at hc
    rcases List.mem_singleton.1 hc with rfl
    exact trimChars_length_le cur
  · simp [flushChunk, h] at hc

theorem flushChunk_snd (cur : List Char) :
    (flushChunk cur).2 = [] ∨ (flushChunk cur).2 = cur := by
  by_cases h : 0 < (trimChars cur).length
  · simp [flushChunk, h]
  · simp [flushChunk, h]

theorem trim_pos_append (x s y : List Char) (hs : 0 < (trimChars s).length) :
    0 < (trimChars (x ++ s ++ y)).length := by
  by_contra h0
  have h1 : trimChars (x ++ s ++ y) = [] := List.length_eq_zero.1 (by omega)
  have h2 := all_ws_of_trim_nil _ h1
  have h3 : ∀ c ∈ s, isWS c = true := by
    intro c hc
    exact h2 c (by simp [hc])
  have h4 := trim_nil_of_all_ws s h3
  rw [h4] at hs
  simp at hs

theorem sentenceLoop_scrub (maxLen : Nat) :
    ∀ (ss : List (List Char)) (sc : List Char),
      scrub (sentenceLoop maxLen ss sc).1.flatten ++
        scrub (sentenceLoop maxLen ss sc).2 = scrub sc ++ scrub ss.flatten := by
  intro ss
  induction ss with
  | nil => intro sc; simp [sentenceLoop, scrub_nil]
  | cons s rest ih =>
    intro sc
    by_cases hover : maxLen < sc.length + s.length
    · simp only [sentenceLoop, hover, if_pos, List.flatten_append, List.flatten_cons]
      rw [scrub_append, List.append_assoc, ih]
      have hfl := flushChunk_scrub sc
      rw [hfl.1]
      rw [scrub_append, scrub_append]
      have hdot : scrub ['.', ' '] = [] := by simp [scrub, isWS, isTerm]
      rw [hfl.2, hdot]
      simp only [List.append_nil, List.nil_append]
      rw [scrub_append]
    · have hdot : scrub ['.', ' '] = [] := by simp [scrub, isWS, isTerm]
      simp only [sentenceLoop, hover, if_neg, not_false_iff, List.nil_append]
      rw [ih, scrub_append, scrub_append, hdot, List.flatten_cons, scrub_append]
      simp

theorem sentenceLoop_len (maxLen : Nat) :
    ∀ (ss : List (List Char)) (sc : List Char),
      (∀ s ∈ ss, s.length ≤ maxLen ∧ 0 < (trimChars s).length) →
      (sc = [] ∨ (0 < (trimChars sc).length ∧ sc.length ≤ maxLen + 2)) →
      (∀ c ∈ (sentenceLoop maxLen ss sc).1, c.length ≤ maxLen + 2) ∧
      ((sentenceLoop maxLen ss sc).2 = [] ∨
        (0 < (trimChars (sentenceLoop maxLen ss sc).2).length ∧
          (sentenceLoop maxLen ss sc).2.length ≤ maxLen + 2)) := by
  intro ss
  induction ss with
  | nil =>
    intro sc _ hsc
    exact ⟨by simp [sentenceLoop], by simpa [sentenceLoop] using hsc⟩
  | cons s rest ih =>
    intro sc hss hsc
    have hs := hss s (List.mem_cons_self s rest)
    have hrest := fun s2 h2 => hss s2 (List.mem_cons_of_mem s h2)
    by_cases hover : maxLen < sc.length + s.length
    · simp only [sentenceLoop, hover, if_pos]
      have hnext : (flushChunk sc).2 ++ s ++ ['.', ' '] = [] ∨
          (0 < (trimChars ((flushChunk sc).2 ++ s ++ ['.', ' '])).length ∧
            ((flushChunk sc).2 ++ s ++ ['.', ' ']).length ≤ maxLen + 2) := by
        right
        constructor
        · exact trim_pos_append _ s _ hs.2
        · have hpush : (flushChunk sc).2 = [] := by
            rcases hsc with rfl | ⟨htr, _⟩
            · simp [flushChunk, trimChars]
            · simp [flushChunk, htr]
          rw [hpush]
          simp only [List.nil_append, List.length_append]
          simp only [List.length_cons, List.length_nil]
          omega
      rcases ih ((flushChunk sc).2 ++ s ++ ['.', ' ']) hrest hnext with ⟨ih1, ih2⟩
      refine ⟨?_, ih2⟩
      intro c hc
      rcases List.mem_append.1 hc with hc | hc
      · have h1 := flushChunk_len sc c hc
        rcases hsc with rfl | ⟨_, hlen⟩
        · simp [flushChunk, trimChars] at hc
        · omega
      · exact ih1 c hc
    · simp only [sentenceLoop, hover, if_neg, not_false_iff]
      have hnext : sc ++ s ++ ['.', ' '] = [] ∨
          (0 < (trimChars (sc ++ s ++ ['.', ' '])).length ∧
            (sc ++ s ++ ['.', ' ']).length ≤ maxLen + 2) := by
        right
        refine ⟨trim_pos_append _ s _ hs.2, ?_⟩
        simp only [List.length_append, List.length_cons, List.length_nil]
        omega
      rcases ih (sc ++ s ++ ['.', ' ']) hrest hnext with ⟨ih1, ih2⟩
      exact ⟨by simpa using ih1, ih2⟩

theorem fallbackLoop_scrub (maxLen : Nat) :
    ∀ (ps : List (List Char)) (cur : List Char),
      scrub (fallbackLoop maxLen ps cur).flatten = scrub cur ++ scrub ps.flatten := by
  intro ps
  induction ps with
  | nil =>
    intro cur
    simp only [fallbackLoop, List.flatten_nil]
    rw [(flushChunk_scrub cur).1]
    simp [scrub_nil]
  | cons p rest ih =>
    intro cur
    by_cases h1 : maxLen < cur.length + p.length
    · by_cases h2 : maxLen < p.length
      · simp only [fallbackLoop, h1, h2, if_pos, List.flatten_append]
        rw [scrub_append, scrub_append, (flushChunk_scrub cur).1, ih]
        have hsl := sentenceLoop_scrub maxLen (sentencesOf p) []
        rw [scrub_nil, List.nil_append, scrub_sentencesOf] at hsl
        by_cases hb : 0 < (trimChars (sentenceLoop maxLen (sentencesOf p) []).2).length
        · simp only [hb, if_pos]
          rw [scrub_trimChars]
          rw [List.flatten_cons, scrub_append, ← List.append_assoc, ← List.append_assoc]
          rw [List.append_assoc (scrub cur), hsl]
        · simp only [hb, if_neg, not_false_iff]
          have hnil : trimChars (sentenceLoop maxLen (sentencesOf p) []).2 = [] :=
            List.length_eq_zero.1 (by omega)
          have hsl2 : scrub (sentenceLoop maxLen (sentencesOf p) []).2 = [] :=
            scrub_eq_nil_of_trim_nil _ hnil
          rw [hsl2, List.append_nil] at hsl
          rw [(flushChunk_scrub cur).2, hsl]
          rw [List.flatten_cons, scrub_append]
          simp
      · simp only [fallbackLoop, h1, h2, if_pos, if_neg, not_false_iff,
          List.flatten_append]
        rw [scrub_append, (flushChunk_scrub cur).1, ih]
        rw [List.flatten_cons, scrub_append]
    · by_cases h3 : 0 < cur.length
      · simp only [fallbackLoop, h1, h3, if_pos, if_neg, not_false_iff]
        rw [ih, scrub_append]
        rw [List.flatten_cons, scrub_append]
        rw [scrub_newline, scrub_newline]
        simp
      · have hcur : cur = [] := List.eq_nil_of_length_eq_zero (by omega)
        subst hcur
        simp only [fallbackLoop, h1, h3, if_neg, not_false_iff]
        rw [ih]
        rw [List.flatten_cons, scrub_append]
        simp [scrub_nil]

theorem fallbackLoop_len (maxLen : Nat) :
    ∀ (ps : List (List Char)) (cur : List Char),
      (∀ p ∈ ps, maxLen < p.length → ∀ s ∈ sentencesOf p, s.length ≤ maxLen) →
      cur.length ≤ maxLen + 2 →
      ∀ c ∈ fallbackLoop maxLen ps cur, c.length ≤ maxLen + 2 := by
  intro ps
  induction ps with
  | nil =>
    intro cur _ hcur c hc
    simp only [fallbackLoop] at hc
    exact le_trans (flushChunk_len cur c hc) hcur
  | cons p rest ih =>
    intro cur hps hcur c hc
    have hp := hps p (List.mem_cons_self p rest)
    have hrest := fun p2 h2 => hps p2 (List.mem_cons_of_mem p h2)
    by_cases h1 : maxLen < cur.length + p.length
    · by_cases h2 : maxLen < p.length
      · simp only [fallbackLoop, h1, h2, if_pos, List.mem_append] at hc
        have hslspec := sentenceLoop_len maxLen (sentencesOf p) []
          (fun s hs => ⟨hp h2 s hs, of_decide_eq_true (List.mem_filter.1 hs).2⟩)
          (Or.inl rfl)
        rcases hc with (hc | hc) | hc
        · exact le_trans (flushChunk_len cur c hc) hcur
        · exact hslspec.1 c hc
        · apply ih _ hrest ?_ c hc
          by_cases hb : 0 < (trimChars (sentenceLoop maxLen (sentencesOf p) []).2).length
          · simp only [hb, if_pos]
            rcases hslspec.2 with hnil | ⟨_, hlen⟩
            · rw [hnil]; simp [trimChars]
            · exact le_trans (trimChars_length_le _) hlen
          · simp only [hb, if_neg, not_false_iff]
            rcases flushChunk_snd cur with h | h
            · rw [h]; simp
            · rw [h]; exact hcur
      · simp only [fallbackLoop, h1, h2, if_pos, if_neg, not_false_iff,
          List.mem_append] at hc
        rcases hc with hc | hc
        · exact le_trans (flushChunk_len cur c hc) hcur
        · exact ih _ hrest (by omega) c hc
    · by_cases h3 : 0 < cur.length
      · simp only [fallbackLoop, h1, h3, if_pos, if_neg, not_false_iff] at hc
        apply ih _ hrest ?_ c hc
        simp only [List.length_append, List.length_cons]
        omega
      · simp only [fallbackLoop, h1, h3, if_neg, not_false_iff] at hc
        exact ih _ hrest (by omega) c hc

/-- C5 amended: the fallback splitter never drops content: ignoring
whitespace and the sentence terminators that the splitter rewrites to ". ",
the concatenated fragments reproduce the input exactly and in order; every
produced fragment is at most 2 characters over the budget -- the inserted
"\n\n" and ". " separators are not counted by the overflow checks --
provided every sentence of every over-budget paragraph fits the budget; and
at least one fragment is produced whenever the input has any
non-whitespace, non-terminator content. -/
theorem fallbackTextSplitting_spec (text : String) (maxChunkLength : Nat)
    (hsent : ∀ p ∈ paragraphsOf text, maxChunkLength < p.length →
      ∀ s ∈ sentencesOf p, s.length ≤ maxChunkLength) :
    scrub (((fallbackTextSplitting text maxChunkLength).map String.data).flatten) =
      scrub text.data ∧
    (∀ c ∈ fallbackTextSplitting text maxChunkLength,
      c.data.length ≤ maxChunkLength + 2) ∧
    (scrub text.data ≠ [] → fallbackTextSplitting text maxChunkLength ≠ []) := by
  have hmapdata : (fallbackTextSplitting text maxChunkLength).map String.data =
      fallbackLoop maxChunkLength (paragraphsOf text) [] := by
    unfold fallbackTextSplitting
    rw [List.map_map]
    have hid : String.data ∘ String.mk = id := by
      funext l
      rfl
    rw [hid, List.map_id]
  have hscrub : scrub
      (((fallbackTextSplitting text maxChunkLength).map String.data).flatten) =
      scrub text.data := by
    rw [hmapdata, fallbackLoop_scrub, scrub_paragraphsOf]
    simp [scrub_nil]
  refine ⟨hscrub, ?_, ?_⟩
  · intro c hc
    have hc2 : c.data ∈ (fallbackTextSplitting text maxChunkLength).map String.data :=
      List.mem_map_of_mem String.data hc
    rw [hmapdata] at hc2
    exact fallbackLoop_len maxChunkLength (paragraphsOf text) [] hsent (by simp) c.data hc2
  · intro hne hres
    rw [hres] at hscrub
    simp only [List.map_nil, List.flatten_nil] at hscrub
    exact hne (by rw [← hscrub]; rfl)

/-- C5 counterexample: with budget 10 and input "aaaaa\n\nbbbbb", whose two
paragraphs have 5 characters each, the splitter accumulates both paragraphs
-- the overflow check ignores the inserted blank line -- and returns a
single 12-character fragment, longer than the budget although no paragraph
exceeds it (so the single-unsplittable-paragraph exception does not
apply). -/
theorem fallbackTextSplitting_over_budget :
    fallbackTextSplitting "aaaaa\n\nbbbbb" 10 = ["aaaaa\n\nbbbbb"] ∧
    (∀ p ∈ paragraphsOf "aaaaa\n\nbbbbb", p.length ≤ 10) ∧
    ∃ c ∈ fallbackTextSplitting "aaaaa\n\nbbbbb" 10, 10 < c.data.length := by
  refine ⟨by decide, by decide, ?_⟩
  refine ⟨"aaaaa\n\nbbbbb", by decide, by decide⟩

/-- C5 witness: at the counterexample input the hypothesis of the amended
theorem holds vacuously (no paragraph is over budget) and all three amended
conclusions are obtained. -/
theorem fallbackTextSplitting_spec_witness :
    scrub (((fallbackTextSplitting "aaaaa\n\nbbbbb" 10).map String.data).flatten) =
      scrub ("aaaaa\n\nbbbbb" : String).data ∧
    (∀ c ∈ fallbackTextSplitting "aaaaa\n\nbbbbb" 10, c.data.length ≤ 10 + 2) ∧
    (scrub ("aaaaa\n\nbbbbb" : String).data ≠ [] →
      fallbackTextSplitting "aaaaa\n\nbbbbb" 10 ≠ []) :=
  fallbackTextSplitting_spec "aaaaa\n\nbbbbb" 10 (by decide)

/- ================================================================
   cleanHtml (src/unnamed/part_003) - the content normalizer.

   The normalizer is modelled as a pure function over an HTML document
   tree.  The tree mirrors cheerio's DOM: element nodes carry a tag, an
   attribute list and child nodes; text and comment nodes carry raw
   text.  Elements additionally carry a numeric identity, modelling DOM
   node identity: cheerio's each-loops iterate over the snapshot of
   nodes matched when the selector ran, and a snapshot member that an
   earlier mutation has detached from the document can no longer affect
   the document, because replaceWith clears the replaced node's parent
   link and parses its replacement markup into fresh nodes.  The loop
   model below therefore walks a snapshot of element identities and
   skips every identity that is no longer present in the document.
   ================================================================ -/

/-- Attribute list of a DOM element: name/value pairs in document order. -/
abbrev HAttrs := List (List Char × List Char)

mutual
/-- DOM node: text, comment, or element (identity, tag, attributes, children). -/
inductive HNode where
  | htext : List Char → HNode
  | hcomm : List Char → HNode
  | helem : Nat → List Char → HAttrs → HNodeList → HNode
/-- Node list, mutual with HNode so that recursion over the tree is structural. -/
inductive HNodeList where
  | hnil : HNodeList
  | hcons : HNode → HNodeList → HNodeList
end

/-- Concatenation of node lists. -/
def happend : HNodeList → HNodeList → HNodeList
  | .hnil, ys => ys
  | .hcons x xs, ys => .hcons x (happend xs ys)

mutual
/-- Model of cheerio element.text() building block: concatenated data of all text descendants. -/
def textContentN : HNode → List Char
  | .htext s => s
  | .hcomm _ => []
  | .helem _ _ _ cs => textContentL cs
def textContentL : HNodeList → List Char
  | .hnil => []
  | .hcons n ns => textContentN n ++ textContentL ns
end

mutual
/-- Whether the forest contains an element whose tag is in the list;
models the test element.find(tagSelector).length > 0 when applied to an
element's children. -/
def hasTagL (tags : List (List Char)) : HNodeList → Bool
  | .hnil => false
  | .hcons n ns => hasTagN tags n || hasTagL tags ns
def hasTagN (tags : List (List Char)) : HNode → Bool
  | .htext _ => false
  | .hcomm _ => false
  | .helem _ t _ cs => tags.contains t || hasTagL tags cs
end

/-- HTML void elements: serialized without a closing tag and parsed without children. -/
def voidTags : List (List Char) :=
  ["area", "base", "basefont", "bgsound", "br", "col", "embed", "frame", "hr",
   "img", "input", "keygen", "link", "meta", "param", "source", "track", "wbr"].map String.data

/-- Text-node serialization escaping as performed by parse5. -/
def escapeText (s : List Char) : List Char :=
  s.flatMap fun c =>
    if c = '&' then "&amp;".data
    else if c = '<' then "&lt;".data
    else if c = '>' then "&gt;".data
    else if c = '\u00A0' then "&nbsp;".data
    else [c]

/-- Attribute-value serialization escaping as performed by parse5. -/
def escapeAttr (s : List Char) : List Char :=
  s.flatMap fun c =>
    if c = '&' then "&amp;".data
    else if c = '"' then "&quot;".data
    else if c = '\u00A0' then "&nbsp;".data
    else [c]

/-- Serialization of an attribute list. -/
def serializeAttrs (attrs : HAttrs) : List Char :=
  attrs.flatMap fun p => ' ' :: (p.1 ++ '=' :: '"' :: (escapeAttr p.2 ++ ['"']))

mutual
/-- Model of parse5 serialization, the building block of element.html() and of the final document rendering. -/
def serializeN : HNode → List Char
  | .htext s => escapeText s
  | .hcomm s => "<!--".data ++ s ++ "-->".data
  | .helem _ t a cs =>
      if voidTags.contains t then
        '<' :: (t ++ serializeAttrs a ++ ['>'])
      else
        '<' :: (t ++ serializeAttrs a ++ ['>']) ++ serializeL cs ++ ("</".data ++ t ++ ['>'])
def serializeL : HNodeList → List Char
  | .hnil => []
  | .hcons n ns => serializeN n ++ serializeL ns
end

mutual
/-- Preorder list of the identities of the elements matched by the predicate: the node set a cheerio selector captures at the moment it runs. -/
def snapshotL (p : List Char → HAttrs → Bool) : HNodeList → List Nat
  | .hnil => []
  | .hcons n ns => snapshotN p n ++ snapshotL p ns
def snapshotN (p : List Char → HAttrs → Bool) : HNode → List Nat
  | .htext _ => []
  | .hcomm _ => []
  | .helem i t a cs => (if p t a then [i] else []) ++ snapshotL p cs
end

mutual
/-- Tag, attributes and children of the element with the given identity, when it is still attached to the document. -/
def lookupL (id : Nat) : HNodeList → Option (List Char × HAttrs × HNodeList)
  | .hnil => none
  | .hcons n ns =>
      match lookupN id n with
      | some r => some r
      | none => lookupL id ns
def lookupN (id : Nat) : HNode → Option (List Char × HAttrs × HNodeList)
  | .htext _ => none
  | .hcomm _ => none
  | .helem i t a cs => if i = id then some (t, a, cs) else lookupL id cs
end

/-- Whether the list has a direct element child carrying the identity. -/
def directChild (id : Nat) : HNodeList → Bool
  | .hnil => false
  | .hcons (.helem i _ _ _) ns => i == id || directChild id ns
  | .hcons _ ns => directChild id ns

mutual
/-- Tag of the parent element of the element with the given identity; none at document root or when the identity is absent (models element.parent().prop of the tag name, which is undefined at the root). -/
def parentTagL (id : Nat) : HNodeList → Option (List Char)
  | .hnil => none
  | .hcons n ns =>
      match parentTagN id n with
      | some t => some t
      | none => parentTagL id ns
def parentTagN (id : Nat) : HNode → Option (List Char)
  | .htext _ => none
  | .hcomm _ => none
  | .helem _ t _ cs => if directChild id cs then some t else parentTagL id cs
end

mutual
/-- Number of ancestor elements of the element with the given identity, models getElementDepth: ancestors are counted up to, and excluding, the root document. -/
def depthL (id : Nat) (acc : Nat) : HNodeList → Option Nat
  | .hnil => none
  | .hcons n ns =>
      match depthN id acc n with
      | some d => some d
      | none => depthL id acc ns
def depthN (id : Nat) (acc : Nat) : HNode → Option Nat
  | .htext _ => none
  | .hcomm _ => none
  | .helem i _ _ cs => if i = id then some acc else depthL id (acc + 1) cs
end

/-- Whether the node is an element carrying the identity. -/
def nodeHasId (id : Nat) : HNode → Bool
  | .helem i _ _ _ => i == id
  | _ => false

mutual
/-- Replacement of the element carrying the identity by the given nodes; models element.replaceWith, and with hnil it models element.remove.  Identities are allocated from a monotone counter, so at most one node carries any identity. -/
def replaceIdN (id : Nat) (new : HNodeList) : HNode → HNode
  | .htext s => .htext s
  | .hcomm s => .hcomm s
  | .helem i t a cs => .helem i t a (replaceIdL id new cs)
def replaceIdL (id : Nat) (new : HNodeList) : HNodeList → HNodeList
  | .hnil => .hnil
  | .hcons n ns =>
      if nodeHasId id n then happend new ns
      else .hcons (replaceIdN id new n) (replaceIdL id new ns)
end

mutual
/-- Removal of every element matched by the predicate together with its subtree; models selector-based remove calls, whose sequential per-selector removals commute and equal one recursive sweep with the union predicate. -/
def removeMatchingN (p : List Char → HAttrs → Bool) : HNode → Option HNode
  | .htext s => some (.htext s)
  | .hcomm s => some (.hcomm s)
  | .helem i t a cs => if p t a then none else some (.helem i t a (removeMatchingL p cs))
def removeMatchingL (p : List Char → HAttrs → Bool) : HNodeList → HNodeList
  | .hnil => .hnil
  | .hcons n ns =>
      match removeMatchingN p n with
      | some n2 => .hcons n2 (removeMatchingL p ns)
      | none => removeMatchingL p ns
end

mutual
/-- Rewrite of every element's attribute list; models the attribute-cleanup pass, which only mutates attributes and never detaches nodes. -/
def mapAttrsN (f : List Char → HAttrs → HAttrs) : HNode → HNode
  | .htext s => .htext s
  | .hcomm s => .hcomm s
  | .helem i t a cs => .helem i t (f t a) (mapAttrsL f cs)
def mapAttrsL (f : List Char → HAttrs → HAttrs) : HNodeList → HNodeList
  | .hnil => .hnil
  | .hcons n ns => .hcons (mapAttrsN f n) (mapAttrsL f ns)
end

/-- Tag of the first element node of the list. -/
def firstElemTag : HNodeList → Option (List Char)
  | .hnil => none
  | .hcons (.helem _ t _ _) _ => some t
  | .hcons _ ns => firstElemTag ns

mutual
/-- Next element sibling of the element carrying the identity: none when the identity is absent, some none when it has no element sibling after it, some (some tag) otherwise; models cheerio's next(), which skips text and comment siblings. -/
def nextElemTagL (id : Nat) : HNodeList → Option (Option (List Char))
  | .hnil => none
  | .hcons n ns =>
      if nodeHasId id n then some (firstElemTag ns)
      else
        match nextElemTagN id n with
        | some r => some r
        | none => nextElemTagL id ns
def nextElemTagN (id : Nat) : HNode → Option (Option (List Char))
  | .htext _ => none
  | .hcomm _ => none
  | .helem _ _ _ cs => nextElemTagL id cs
end

/-- Tags of the direct element children of the list, models element.children(). -/
def childElemTags : HNodeList → List (List Char)
  | .hnil => []
  | .hcons (.helem _ t _ _) ns => t :: childElemTags ns
  | .hcons _ ns => childElemTags ns

/-- Lowercase an ASCII character, modelling toLowerCase and the case-insensitive regex flag. -/
def lowerChar (c : Char) : Char :=
  if 65 ≤ c.toNat && c.toNat ≤ 90 then Char.ofNat (c.toNat + 32) else c

/-- Whether the character can start a tag name. -/
def isTagStart (c : Char) : Bool :=
  (97 ≤ c.toNat && c.toNat ≤ 122) || (65 ≤ c.toNat && c.toNat ≤ 90)

/-- Whether the character continues a tag or attribute name. -/
def isNameChar (c : Char) : Bool :=
  !(isWS c) && c ≠ '>' && c ≠ '/' && c ≠ '='

/-- Whether sub occurs as a contiguous segment of the list; models String.prototype.includes and the substring attribute selector. -/
def containsSub (sub : List Char) : List Char → Bool
  | [] => sub.isEmpty
  | c :: rest => sub.isPrefixOf (c :: rest) || containsSub sub rest

/-- Decode the basic named character references that parsing would decode in text and attribute values; fuel bounds the scan. -/
def decodeEntities : Nat → List Char → List Char
  | 0, l => l
  | _ + 1, [] => []
  | fuel + 1, c :: rest =>
      if c = '&' then
        if "amp;".data.isPrefixOf rest then '&' :: decodeEntities fuel (rest.drop 4)
        else if "lt;".data.isPrefixOf rest then '<' :: decodeEntities fuel (rest.drop 3)
        else if "gt;".data.isPrefixOf rest then '>' :: decodeEntities fuel (rest.drop 3)
        else if "quot;".data.isPrefixOf rest then '"' :: decodeEntities fuel (rest.drop 5)
        else if "nbsp;".data.isPrefixOf rest then ' ' :: decodeEntities fuel (rest.drop 5)
        else '&' :: decodeEntities fuel rest
      else c :: decodeEntities fuel rest

/-- Parse an attribute list up to and across the closing bracket of an open tag; fuel bounds the scan. -/
def parseAttrs : Nat → List Char → HAttrs × List Char
  | 0, l => ([], l)
  | _ + 1, [] => ([], [])
  | fuel + 1, c :: rest =>
      if c = '>' then ([], rest)
      else if isWS c || c = '/' then parseAttrs fuel rest
      else
        let name := ((c :: rest).takeWhile isNameChar).map lowerChar
        let r1 := (c :: rest).dropWhile isNameChar
        let r2 := r1.dropWhile isWS
        match r2 with
        | '=' :: r3 =>
            let r4 := r3.dropWhile isWS
            (match r4 with
             | '"' :: r5 =>
                 let v := r5.takeWhile (fun d => d ≠ '"')
                 let p := parseAttrs fuel ((r5.dropWhile (fun d => d ≠ '"')).drop 1)
                 ((name, decodeEntities v.length v) :: p.1, p.2)
             | '\'' :: r5 =>
                 let v := r5.takeWhile (fun d => d ≠ '\'')
                 let p := parseAttrs fuel ((r5.dropWhile (fun d => d ≠ '\'')).drop 1)
                 ((name, decodeEntities v.length v) :: p.1, p.2)
             | _ =>
                 let v := r4.takeWhile (fun d => !(isWS d) && d ≠ '>')
                 let p := parseAttrs fuel (r4.dropWhile (fun d => !(isWS d) && d ≠ '>'))
                 ((name, decodeEntities v.length v) :: p.1, p.2))
        | _ =>
            let p := parseAttrs fuel r2
            ((name, []) :: p.1, p.2)

/-- Split a comment body from the input at the closing comment marker; fuel bounds the scan. -/
def commentSplit : Nat → List Char → List Char × List Char
  | 0, _ => ([], [])
  | fuel + 1, l =>
      if "-->".data.isPrefixOf l then ([], l.drop 3)
      else
        match l with
        | [] => ([], [])
        | c :: rest =>
            let p := commentSplit fuel rest
            (c :: p.1, p.2)

/-- Drop a closing tag at the head of the input, as the parser does when a parsed element's children are complete. -/
def dropCloseTag (l : List Char) : List Char :=
  match l with
  | '<' :: '/' :: rest => (rest.dropWhile (fun d => d ≠ '>')).drop 1
  | _ => l

/-- Fragment parser modelling cheerio's parsing of well-nested markup: returns the parsed sibling nodes, the next fresh element identity, and the unconsumed input, which begins with a closing tag when the recursion returns to its parent element.  Each call consumes at least one character before recursing, so a fuel one above the input length is never exhausted. -/
def parseNodes : Nat → Nat → List Char → HNodeList × Nat × List Char
  | 0, fresh, l => (.hnil, fresh, l)
  | _ + 1, fresh, [] => (.hnil, fresh, [])
  | _ + 1, fresh, '<' :: '/' :: rest => (.hnil, fresh, '<' :: '/' :: rest)
  | fuel + 1, fresh, '<' :: '!' :: rest =>
      if "--".data.isPrefixOf rest then
        let cb := commentSplit (rest.drop 2).length (rest.drop 2)
        let pr := parseNodes fuel fresh cb.2
        (.hcons (.hcomm cb.1) pr.1, pr.2.1, pr.2.2)
      else
        let body := rest.takeWhile (fun d => d ≠ '>')
        let pr := parseNodes fuel fresh ((rest.dropWhile (fun d => d ≠ '>')).drop 1)
        (.hcons (.hcomm body) pr.1, pr.2.1, pr.2.2)
  | _ + 1, fresh, ['<'] => (.hcons (.htext ['<']) .hnil, fresh, [])
  | fuel + 1, fresh, '<' :: c :: rest =>
      if isTagStart c then
        let tag := ((c :: rest).takeWhile isNameChar).map lowerChar
        let r1 := (c :: rest).dropWhile isNameChar
        let pa := parseAttrs (r1.length + 1) r1
        if voidTags.contains tag then
          let pr := parseNodes fuel (fresh + 1) pa.2
          (.hcons (.helem fresh tag pa.1 .hnil) pr.1, pr.2.1, pr.2.2)
        else
          let pc := parseNodes fuel (fresh + 1) pa.2
          let pr := parseNodes fuel pc.2.1 (dropCloseTag pc.2.2)
          (.hcons (.helem fresh tag pa.1 pc.1) pr.1, pr.2.1, pr.2.2)
      else
        let pr := parseNodes fuel fresh (c :: rest)
        (.hcons (.htext ['<']) pr.1, pr.2.1, pr.2.2)
  | fuel + 1, fresh, c :: rest =>
      let t := (c :: rest).takeWhile (fun d => d ≠ '<')
      let pr := parseNodes fuel fresh ((c :: rest).dropWhile (fun d => d ≠ '<'))
      (.hcons (.htext (decodeEntities t.length t)) pr.1, pr.2.1, pr.2.2)

/-- Parse markup into a node forest, threading the fresh-identity counter. -/
def parseFragment (s : List Char) (fresh : Nat) : HNodeList × Nat :=
  let r := parseNodes (s.length + 1) fresh s
  (r.1, r.2.1)

/-- Model of cheerio.load on fragment-style input, which the document parser wraps in an html/head/body scaffold; identities 0, 1 and 2 are the scaffold elements. -/
def loadDoc (s : List Char) : HNodeList × Nat :=
  let p := parseFragment s 3
  (.hcons (.helem 0 "html".data []
    (.hcons (.helem 1 "head".data [] .hnil)
      (.hcons (.helem 2 "body".data [] p.1) .hnil))) .hnil, p.2)

/-- Value of the first attribute with the given name. -/
def attrVal (attrs : HAttrs) (name : List Char) : Option (List Char) :=
  match attrs.find? (fun p => p.1 == name) with
  | some p => some p.2
  | none => none

/-- Whitespace-separated words of a character list; fuel bounds the scan. -/
def wordsAux : Nat → List Char → List (List Char)
  | 0, _ => []
  | fuel + 1, l =>
      match l.dropWhile isWS with
      | [] => []
      | c :: rest =>
          ((c :: rest).takeWhile (fun d => !(isWS d)))
            :: wordsAux fuel ((c :: rest).dropWhile (fun d => !(isWS d)))

/-- Whether the element's class attribute contains the class token. -/
def hasClass (attrs : HAttrs) (cls : List Char) : Bool :=
  match attrVal attrs "class".data with
  | some v => (wordsAux v.length v).contains cls
  | none => false

/-- Tags removed unconditionally in step 1 of cleanHtml: scripts and styles, form elements, metadata and document structure, embedded content, media, and decorative semantic elements (the source list also names style, script and noscript twice and link both bare and with the stylesheet filter). -/
def removedTags : List (List Char) :=
  ["script", "noscript", "style",
   "form", "input", "textarea", "select", "option", "optgroup",
   "label", "fieldset", "legend", "datalist", "output",
   "progress", "meter", "button",
   "head", "meta", "title", "base", "link",
   "object", "embed", "applet", "iframe", "frame", "frameset", "noframes",
   "audio", "video", "source", "track", "canvas", "svg", "math",
   "footer", "header", "nav", "font"].map String.data

/-- Tags additionally removed when keepImages is false. -/
def imageTags : List (List Char) :=
  ["img", "picture", "figure", "figcaption", "svg"].map String.data

/-- Union predicate of the elementsToRemove selector list: plain tags, the stylesheet link filter, the div footer and header class filters, and the image tags when keepImages is false. -/
def step1Match (keepImages : Bool) (t : List Char) (a : HAttrs) : Bool :=
  removedTags.contains t
  || (t == "link".data && attrVal a "rel".data == some "stylesheet".data)
  || (t == "div".data && (hasClass a "footer".data || hasClass a "header".data))
  || (!keepImages && imageTags.contains t)

/-- Predicate of the step 2 hidden-element selectors: the hidden attribute and the four inline-style substrings. -/
def hiddenMatch (_t : List Char) (a : HAttrs) : Bool :=
  (attrVal a "hidden".data).isSome
  || (match attrVal a "style".data with
      | some v =>
          containsSub "display:none".data v || containsSub "display: none".data v
          || containsSub "visibility:hidden".data v || containsSub "visibility: hidden".data v
      | none => false)

/-- Step 3: removal of comment nodes among the root's direct children. -/
def removeRootComments : HNodeList → HNodeList
  | .hnil => .hnil
  | .hcons (.hcomm _) ns => removeRootComments ns
  | .hcons n ns => .hcons n (removeRootComments ns)

mutual
/-- Step 4: removal of title elements that sit under a body element. -/
def removeBodyTitleN : HNode → HNode
  | .htext s => .htext s
  | .hcomm s => .hcomm s
  | .helem i t a cs =>
      if t == "body".data then
        .helem i t a (removeMatchingL (fun tg _ => tg == "title".data) cs)
      else .helem i t a (removeBodyTitleL cs)
def removeBodyTitleL : HNodeList → HNodeList
  | .hnil => .hnil
  | .hcons n ns => .hcons (removeBodyTitleN n) (removeBodyTitleL ns)
end

/-- Attribute rewrite of step 5: a link keeps only a truthy href plus the configured target when that is truthy; every other element loses all attributes. -/
def cleanAttrsF (linkTarget : List Char) (t : List Char) (a : HAttrs) : HAttrs :=
  if t == "a".data then
    match attrVal a "href".data with
    | some v =>
        if v.isEmpty then []
        else ("href".data, v) :: (if linkTarget.isEmpty then [] else [("target".data, linkTarget)])
    | none => []
  else []

/-- Iteration of an each-style loop over a snapshot of element identities: an identity no longer attached to the document is skipped (its mutations happen on a detached subtree), and every executed step may rewrite the document and advance the fresh-identity counter. -/
def eachIds (step : HNodeList → Nat → Nat → List Char → HAttrs → HNodeList → Option (HNodeList × Nat))
    (ids : List Nat) (st : HNodeList × Nat) : HNodeList × Nat :=
  ids.foldl (fun s id =>
    match lookupL id s.1 with
    | none => s
    | some (t, a, cs) =>
        match step s.1 s.2 id t a cs with
        | some s2 => s2
        | none => s) st

/-- Step 6 loop body: replace the element by target-tagged markup wrapping its inner HTML, parsed afresh (replaceWith of a template string). -/
def normTagStep (target : List Char) (doc : HNodeList) (fresh : Nat) (id : Nat)
    (_t : List Char) (_a : HAttrs) (cs : HNodeList) : Option (HNodeList × Nat) :=
  let str := ('<' :: target ++ ['>']) ++ serializeL cs ++ ("</".data ++ target ++ ['>'])
  let p := parseFragment str fresh
  some (replaceIdL id p.1 doc, p.2)

/-- Step 6: normalize strong and b to b, then em and i to i. -/
def step6 (st : HNodeList × Nat) : HNodeList × Nat :=
  let st1 := eachIds (normTagStep "b".data)
    (snapshotL (fun t _ => t == "strong".data || t == "b".data) st.1) st
  eachIds (normTagStep "i".data)
    (snapshotL (fun t _ => t == "em".data || t == "i".data) st1.1) st1

/-- Tags exempt from empty-element removal. -/
def emptyExempt : List (List Char) :=
  ["br", "hr", "img", "input", "meta", "link"].map String.data

/-- Tags whose presence as a descendant counts as content. -/
def contentTags : List (List Char) := ["img", "br", "hr"].map String.data

/-- Step 7 loop body: removal of an element with neither text content nor an img, br or hr descendant. -/
def emptyElemStep (doc : HNodeList) (fresh : Nat) (id : Nat)
    (t : List Char) (_a : HAttrs) (cs : HNodeList) : Option (HNodeList × Nat) :=
  if emptyExempt.contains t then none
  else
    let txt := trimChars (textContentL cs)
    if !txt.isEmpty || hasTagL contentTags cs then none
    else some (replaceIdL id .hnil doc, fresh)

/-- Step 7 loop body: removal of an element whose text is empty and whose single element child is a br or hr. -/
def singleSelfStep (doc : HNodeList) (fresh : Nat) (id : Nat)
    (_t : List Char) (_a : HAttrs) (cs : HNodeList) : Option (HNodeList × Nat) :=
  let txt := trimChars (textContentL cs)
  match childElemTags cs with
  | [ct] =>
      if txt.isEmpty && (ct == "br".data || ct == "hr".data) then
        some (replaceIdL id .hnil doc, fresh)
      else none
  | _ => none

/-- Tags into which a div or span is never unwrapped. -/
def unwrapExempt : List (List Char) :=
  ["p", "span", "i", "b", "em", "strong"].map String.data

/-- Step 7 loop body: unwrap an attributeless div or span into its inner HTML when its parent is an element outside the exempt list and the inner HTML is a truthy (non-empty) string. -/
def unwrapStep (doc : HNodeList) (fresh : Nat) (id : Nat)
    (_t : List Char) (a : HAttrs) (cs : HNodeList) : Option (HNodeList × Nat) :=
  if a.isEmpty then
    match parentTagL id doc with
    | some pt =>
        if unwrapExempt.contains pt then none
        else
          let inner := serializeL cs
          if inner.isEmpty then none
          else
            let p := parseFragment inner fresh
            some (replaceIdL id p.1 doc, p.2)
    | none => none
  else none

/-- Step 7 loop body: an element nested deeper than maxNestingLevel is replaced by its trimmed text, or removed when that text is empty. -/
def depthStep (maxNestingLevel : Nat) (doc : HNodeList) (fresh : Nat) (id : Nat)
    (_t : List Char) (_a : HAttrs) (cs : HNodeList) : Option (HNodeList × Nat) :=
  match depthL id 0 doc with
  | some d =>
      if maxNestingLevel < d then
        let txt := trimChars (textContentL cs)
        if txt.isEmpty then some (replaceIdL id .hnil doc, fresh)
        else
          let p := parseFragment txt fresh
          some (replaceIdL id p.1 doc, p.2)
      else none
  | none => none

/-- One pass of step 7: empty-element removal, single-self-closing removal, div and span unwrapping, and excessive-nesting flattening, each iterating over a fresh snapshot. -/
def step7Pass (maxNestingLevel : Nat) (st : HNodeList × Nat) : HNodeList × Nat :=
  let s1 := eachIds emptyElemStep (snapshotL (fun _ _ => true) st.1) st
  let s2 := eachIds singleSelfStep (snapshotL (fun _ _ => true) s1.1) s1
  let s3 := eachIds unwrapStep
    (snapshotL (fun t _ => t == "div".data || t == "span".data) s2.1) s2
  eachIds (depthStep maxNestingLevel) (snapshotL (fun _ _ => true) s3.1) s3

/-- Step 7: exactly three passes of the nesting and empty-element cleanup. -/
def step7 (maxNestingLevel : Nat) (st : HNodeList × Nat) : HNodeList × Nat :=
  step7Pass maxNestingLevel (step7Pass maxNestingLevel (step7Pass maxNestingLevel st))

/-- Block-level tags recognized by isBlockElement. -/
def blockElements : List (List Char) :=
  ["div", "p", "h1", "h2", "h3", "h4", "h5", "h6",
   "ul", "ol", "li", "blockquote", "pre", "table",
   "thead", "tbody", "tfoot", "tr", "td", "th",
   "article", "section", "aside", "header", "footer",
   "main", "nav", "figure", "figcaption"].map String.data

/-- Step 8 loop body: removal of a br with no next element sibling, or whose next element sibling is block-level. -/
def brStep (doc : HNodeList) (fresh : Nat) (id : Nat)
    (_t : List Char) (_a : HAttrs) (_cs : HNodeList) : Option (HNodeList × Nat) :=
  match nextElemTagL id doc with
  | some (some nt) =>
      if blockElements.contains nt then some (replaceIdL id .hnil doc, fresh) else none
  | some none => some (replaceIdL id .hnil doc, fresh)
  | none => none

/-- Step 8: the br-before-block cleanup loop. -/
def step8 (st : HNodeList × Nat) : HNodeList × Nat :=
  eachIds brStep (snapshotL (fun t _ => t == "br".data) st.1) st

/-- Step 10: strip a leading html and body wrapper and the trailing closers, mirroring the two anchored regex replaces (the first only fires when both open tags with their closing brackets are present). -/
def stripWrapper (s : List Char) : List Char :=
  let s1 :=
    if "<html".data.isPrefixOf s then
      let r := s.drop 5
      let inTag := r.takeWhile (fun c => c ≠ '>')
      if r.length ≤ inTag.length then s
      else
        let r2 := r.drop (inTag.length + 1)
        if "<body".data.isPrefixOf r2 then
          let r3 := r2.drop 5
          let inTag2 := r3.takeWhile (fun c => c ≠ '>')
          if r3.length ≤ inTag2.length then s
          else r3.drop (inTag2.length + 1)
        else s
    else s
  if "</body></html>".data.isSuffixOf s1 then s1.take (s1.length - 14) else s1

/-- Minify replace 1: collapse every whitespace run to a single space. -/
def collapseWS : Nat → List Char → List Char
  | 0, l => l
  | _ + 1, [] => []
  | fuel + 1, c :: rest =>
      if isWS c then ' ' :: collapseWS fuel (rest.dropWhile isWS)
      else c :: collapseWS fuel rest

/-- Minify replace 2: drop whitespace between a closing and an opening bracket. -/
def dropInterTagWS : Nat → List Char → List Char
  | 0, l => l
  | _ + 1, [] => []
  | fuel + 1, c :: rest =>
      if c = '>' then
        let ws := rest.takeWhile isWS
        let r := rest.dropWhile isWS
        if !ws.isEmpty && r.head? == some '<' then '>' :: dropInterTagWS fuel r
        else '>' :: dropInterTagWS fuel rest
      else c :: dropInterTagWS fuel rest

/-- Match of an empty attribute assignment (optional whitespace, an equals sign, optional whitespace, then two quote characters) at the head of the input, returning the remainder. -/
def matchEmptyAttr (l : List Char) : Option (List Char) :=
  match l.dropWhile isWS with
  | '=' :: r2 =>
      (match r2.dropWhile isWS with
       | q1 :: q2 :: r4 =>
           if (q1 = '"' || q1 = '\'') && (q2 = '"' || q2 = '\'') then some r4 else none
       | _ => none)
  | _ => none

/-- Minify replace 4: drop empty attribute assignments. -/
def dropEmptyAttrs : Nat → List Char → List Char
  | 0, l => l
  | _ + 1, [] => []
  | fuel + 1, c :: rest =>
      match matchEmptyAttr (c :: rest) with
      | some r => dropEmptyAttrs fuel r
      | none => c :: dropEmptyAttrs fuel rest

/-- Minify replace 5: drop whitespace before a self-closing bracket pair. -/
def dropWSSelfClose : Nat → List Char → List Char
  | 0, l => l
  | _ + 1, [] => []
  | fuel + 1, c :: rest =>
      if isWS c then
        let r := (c :: rest).dropWhile isWS
        if "/>".data.isPrefixOf r then dropWSSelfClose fuel r
        else c :: dropWSSelfClose fuel rest
      else c :: dropWSSelfClose fuel rest

/-- Minify replace 6: normalize an attribute assignment opening quote to the double-quote form. -/
def eqQuoteNorm : Nat → List Char → List Char
  | 0, l => l
  | _ + 1, [] => []
  | fuel + 1, c :: rest =>
      if c = '=' then
        (match rest.dropWhile isWS with
         | '\'' :: r2 => '=' :: '"' :: eqQuoteNorm fuel r2
         | _ => '=' :: eqQuoteNorm fuel rest)
      else c :: eqQuoteNorm fuel rest

/-- Minify replace 7: normalize a closing single quote followed by whitespace or a closing bracket. -/
def closeQuoteNorm : Nat → List Char → List Char
  | 0, l => l
  | _ + 1, [] => []
  | fuel + 1, c :: rest =>
      if c = '\'' then
        (match rest with
         | d :: _ =>
             if isWS d || d = '>' then '"' :: closeQuoteNorm fuel rest
             else '\'' :: closeQuoteNorm fuel rest
         | [] => ['\''])
      else c :: closeQuoteNorm fuel rest

/-- Model of minifyHtml: the seven sequential global regex replaces (the third, leading-and-trailing-whitespace removal, is the whitespace trim). -/
def minifyHtml (s : List Char) : List Char :=
  let s1 := collapseWS s.length s
  let s2 := dropInterTagWS s1.length s1
  let s3 := trimChars s2
  let s4 := dropEmptyAttrs s3.length s3
  let s5 := dropWSSelfClose s4.length s4
  let s6 := eqQuoteNorm s5.length s5
  closeQuoteNorm s6.length s6

/-- Literal http-equiv refresh attribute text with the given quote pair. -/
def refreshAttr (q1 q2 : Char) : List Char :=
  "http-equiv=".data ++ q1 :: ("refresh".data ++ [q2])

/-- Step 12 removal: drop every meta open tag whose attribute text carries an http-equiv refresh marker; the bracket-free regex pieces keep every match inside one tag, and the case-insensitive flag is modelled by lowercasing the scanned tag. -/
def dropMetaRefresh : Nat → List Char → List Char
  | 0, l => l
  | _ + 1, [] => []
  | fuel + 1, c :: rest =>
      if c = '<' && "meta".data.isPrefixOf ((rest.take 4).map lowerChar) then
        let run := rest.takeWhile (fun d => d ≠ '>')
        if rest.length ≤ run.length then c :: dropMetaRefresh fuel rest
        else
          let lrun := run.map lowerChar
          if containsSub (refreshAttr '"' '"') lrun || containsSub (refreshAttr '"' '\'') lrun
              || containsSub (refreshAttr '\'' '"') lrun || containsSub (refreshAttr '\'' '\'') lrun then
            dropMetaRefresh fuel (rest.drop (run.length + 1))
          else c :: dropMetaRefresh fuel rest
      else c :: dropMetaRefresh fuel rest

/-- Step 12: the meta refresh tags are removed only when the exact-case includes test fires. -/
def metaRefreshClean (s : List Char) : List Char :=
  if containsSub (refreshAttr '"' '"') s || containsSub (refreshAttr '\'' '\'') s then
    dropMetaRefresh s.length s
  else s

/-- Model of cleanHtml (src/unnamed/part_003 lines 18-221): load, the selector removals of steps 1-4, the attribute cleanup of step 5, the tag normalization of step 6, the three-pass nesting cleanup of step 7, the br cleanup of step 8, then serialization, wrapper stripping, minification, meta-refresh removal and the final trim. -/
def cleanHtml (html : List Char) (keepImages : Bool) (maxNestingLevel : Nat)
    (linkTarget : List Char) (noMinify : Bool) : List Char :=
  let st0 := loadDoc html
  let d1 := removeMatchingL (step1Match keepImages) st0.1
  let d2 := removeMatchingL hiddenMatch d1
  let d3 := removeRootComments d2
  let d4 := removeBodyTitleL d3
  let d5 := mapAttrsL (cleanAttrsF linkTarget) d4
  let st6 := step6 (d5, st0.2)
  let st7 := step7 maxNestingLevel st6
  let st8 := step8 st7
  let s10 := stripWrapper (serializeL st8.1)
  let s11 := if noMinify then s10 else minifyHtml s10
  trimChars (metaRefreshClean s11)

/-- String-level cleanHtml with the source's default options: keepImages false, maxNestingLevel 10, linkTarget underscore-blank, noMinify false. -/
def cleanHtmlDefault (s : String) : String :=
  String.mk (cleanHtml s.data false 10 "_blank".data false)

/-- Markup with five levels of redundant div nesting around a text node. -/
def nestedDivs : String := "<div><div><div><div><div>hello</div></div></div></div></div>"

set_option maxRecDepth 100000 in
set_option maxHeartbeats 4000000 in
/-- C9: the content normalizer is NOT idempotent.  On markup with five
levels of redundant div nesting, a second application of cleanHtml with
its default options differs from the first: each unwrap iteration of the
three-pass cleanup loop processes a snapshot whose detached members no
longer affect the document, so one invocation removes at most three
levels of redundant nesting, and the first application leaves two
redundant divs that the second application then removes. -/
theorem cleanHtml_not_idempotent :
    cleanHtmlDefault (cleanHtmlDefault nestedDivs) ≠ cleanHtmlDefault nestedDivs := by
  decide

set_option maxRecDepth 100000 in
set_option maxHeartbeats 4000000 in
/-- C9 (amended): one invocation of the normalizer unwraps at most three
levels of redundant div nesting (one level per pass of the three-pass
cleanup loop), and iterating the normalizer stabilizes once no redundant
nesting remains: on five nested divs the first application leaves two
nested divs, the second application reaches the plain text, and that
output is a fixed point of the normalizer. -/
theorem cleanHtml_unwraps_three_levels_per_call :
    cleanHtmlDefault nestedDivs = "<div><div>hello</div></div>"
    ∧ cleanHtmlDefault (cleanHtmlDefault nestedDivs) = "hello"
    ∧ cleanHtmlDefault "hello" = "hello" := by
  refine ⟨by decide, by decide, by decide⟩

end WikiRag
